import Mathlib

/-!
Verification development for the report-generation script `reportscript.py`.

The script locates the newest dated CSV export, loads it with pandas,
renames assignee identifiers, translates two text columns through a cached
Google-translate wrapper fanned out over a thread pool, fills missing cells,
sorts by assignee, and uploads the result to a Google sheet.

This file gives a shallow embedding of the script's data model and logic:
* cells of the pandas table are `Option String` (`none` models NaN);
* the external translation provider is a pure function returning
  `Option String` (`none` models a raised exception);
* the thread-pool fan-out of `_batch_translate` is modelled by its
  sequential semantics (in-order `executor.map`, shared cache threaded
  through the calls);
* `pd.DataFrame.sort_values(by=...)` is modelled by the introspective
  quicksort (`npy_aquicksort`) that numpy runs for the default
  `kind='quicksort'` on an object column, since the sort order of tied keys
  is decided by that algorithm;
* raised exceptions and `sys.exit` are modelled with `Except` / an explicit
  result type.
-/

/-! ### Cells, the translation cache, and `Translator.translate_text` -/

/-- A pandas cell as seen by the script: `none` models NaN (a missing value),
`some s` a string value. -/
abbrev Cell := Option String

/-- Key of the translation cache: `(text, src_lang, target_lang)`,
exactly the tuple used as dictionary key in `Translator._cache`. -/
abbrev CacheKey := String × String × String

/-- State of the `Translator` class: the memoisation dictionary
`Translator._cache` plus an instrumentation counter of how many times the
external provider (`GoogleTranslator(...).translate`) has been invoked. -/
structure TransState where
  cache : List (CacheKey × String)
  calls : Nat
deriving DecidableEq

/-- The external translation provider `GoogleTranslator(source=src,
target=tgt).translate text`: `some t` models a successful translation,
`none` models any raised exception (network error, provider error,
rate limit). -/
abbrev Provider := String → String → String → Option String

/-- Whitespace as stripped by Python's `str.strip()` (the ASCII whitespace
characters; the rare non-ASCII Unicode space characters are not
modelled). -/
def isPySpace (c : Char) : Bool :=
  c = ' ' || c = '\t' || c = '\n' || c = '\r' || c = '\x0b' || c = '\x0c'

/-- Embedding of Python's `str.strip()`: drop whitespace from both ends. -/
def pyStrip (s : String) : String :=
  (((s.data.dropWhile isPySpace).reverse.dropWhile isPySpace).reverse).asString

/-- Lookup in the cache dictionary (models `key in Translator._cache` /
`Translator._cache[key]`). -/
def lookupCache : List (CacheKey × String) → CacheKey → Option String
  | [], _ => none
  | (k, v) :: rest, key => if k = key then some v else lookupCache rest key

/-- Embedding of `Translator.translate_text(text, src_lang, target_lang)`:

* NaN or blank (after `strip`) input is returned unchanged with no cache or
  provider interaction (`if pd.notna(text) and str(text).strip() != ""`);
* a cache hit returns the stored value;
* a cache miss invokes the provider once: on success the translation is
  stored and returned, on an exception the original text is returned and
  the cache is left unchanged (the `except` branch performs no store).

The `calls` counter increases exactly when the provider is invoked. -/
def translate_text (provider : Provider) (st : TransState) (text : Cell)
    (src tgt : String) : Cell × TransState :=
  match text with
  | none => (none, st)
  | some s =>
    if pyStrip s = "" then (some s, st)
    else
      match lookupCache st.cache (s, src, tgt) with
      | some v => (some v, st)
      | none =>
        match provider s src tgt with
        | some t =>
          (some t, { cache := ((s, src, tgt), t) :: st.cache, calls := st.calls + 1 })
        | none => (some s, { cache := st.cache, calls := st.calls + 1 })

/-- The test `pd.notna(text) and str(text).strip() != ""` being false:
the cell is NaN, empty, or whitespace-only. -/
def isBlankCell (c : Cell) : Bool :=
  match c with
  | none => true
  | some s => pyStrip s = ""

/-- The element preprocessing of `DataProcessor._batch_translate`:
`text if pd.notna(text) and str(text).strip() != "" else ""`.
A NaN or blank element is replaced by the empty string before translation. -/
def normalizeCell (c : Cell) : Cell :=
  match c with
  | none => some ""
  | some s => if pyStrip s = "" then some "" else some s

/-- Embedding of `DataProcessor._batch_translate(texts, src_lang,
target_lang)`: each element is normalised and passed through
`Translator.translate_text`, results collected in input order.  The
`ThreadPoolExecutor.map` fan-out is modelled by its sequential semantics:
`executor.map` yields results in input order, and the shared cache is
threaded through the calls. -/
def batch_translate (provider : Provider) (st : TransState) (texts : List Cell)
    (src tgt : String) : List Cell × TransState :=
  match texts with
  | [] => ([], st)
  | t :: ts =>
    let r := translate_text provider st (normalizeCell t) src tgt
    let rs := batch_translate provider r.2 ts src tgt
    (r.1 :: rs.1, rs.2)

/-- A translator state is coherent with a (deterministic) provider when
every stored cache entry is a translation the provider would produce.
`translate_text` only ever stores successful provider results, so
coherence is an invariant of every run that uses a single provider. -/
def CoherentCache (provider : Provider) (st : TransState) : Prop :=
  ∀ k v, (k, v) ∈ st.cache → provider k.1 k.2.1 k.2.2 = some v

/-! ### Configuration store (`load_config` / `save_config`) -/

/-- The persisted user configuration: keys `email` and `credential_file` of
`user_config.json`; `none` models JSON `null`. -/
structure Config where
  email : Option String
  credential_file : Option String
deriving DecidableEq

/-- Embedding of `load_config()`: the stored file if it exists, otherwise
the default `{"email": None, "credential_file": None}`.  The on-disk file
is modelled as `Option Config` (`none` = the file does not exist). -/
def load_config (store : Option Config) : Config :=
  match store with
  | none => { email := none, credential_file := none }
  | some c => c

/-- Python truthiness of an optional string argument: `None` and the empty
string are falsy, every other string is truthy. -/
def truthyStr : Option String → Bool
  | none => false
  | some s => decide (s ≠ "")

/-- Embedding of `save_config(email, credential_file)`: loads the current
configuration, overwrites each field only when the corresponding argument
is truthy (`if email:` / `if credential_file:`), and writes the file. -/
def save_config (store : Option Config) (email credential_file : Option String) :
    Option Config :=
  let config := load_config store
  let config := if truthyStr email then { config with email := email } else config
  let config :=
    if truthyStr credential_file then { config with credential_file := credential_file }
    else config
  some config

/-! ### Latest-file locator (`file_pattern`, `get_latest_file`) -/

/-- A calendar date as produced by `datetime.strptime(s, "%Y-%m-%d")`. -/
structure PyDate where
  y : Nat
  m : Nat
  d : Nat
deriving DecidableEq

/-- Leap-year rule of the Gregorian calendar, as used by `datetime`. -/
def isLeap (y : Nat) : Bool :=
  (y % 4 == 0 && y % 100 != 0) || y % 400 == 0

/-- Number of days of month `m` in year `y` (as validated by `datetime`). -/
def daysInMonth (y m : Nat) : Nat :=
  if m = 2 then (if isLeap y then 29 else 28)
  else if m = 4 ∨ m = 6 ∨ m = 9 ∨ m = 11 then 30
  else 31

/-- Value of a list of decimal digit characters. -/
def digitsVal (cs : List Char) : Nat :=
  cs.foldl (fun acc c => acc * 10 + (c.toNat - '0'.toNat)) 0

/-- Take exactly `n` decimal digits from the front of a character list,
returning their value and the remainder; fails if a non-digit appears.
Models a `\d{n}` atom of the regular expression (ASCII digits). -/
def takeDigits : Nat → List Char → Option (Nat × List Char)
  | 0, cs => some (0, cs)
  | _ + 1, [] => none
  | n + 1, c :: cs =>
    if c.isDigit then
      match takeDigits n cs with
      | some (v, rest) => some ((c.toNat - '0'.toNat) * 10 ^ n + v, rest)
      | none => none
    else none

/-- Match a literal string at the front of a character list. -/
def matchLit : List Char → List Char → Option (List Char)
  | [], cs => some cs
  | _ :: _, [] => none
  | l :: ls, c :: cs => if l = c then matchLit ls cs else none

/-- Try to match the pattern `project_(\d{4}-\d{2}-\d{2})\.csv` at the head
of the character list; on success return the captured group as a date
triple together with its verbatim text. -/
def matchDateCsvAt (cs : List Char) : Option (Nat × Nat × Nat × String) := do
  let r0 ← matchLit "project_".data cs
  let (y, r1) ← takeDigits 4 r0
  let r2 ← matchLit "-".data r1
  let (m, r3) ← takeDigits 2 r2
  let r4 ← matchLit "-".data r3
  let (d, r5) ← takeDigits 2 r4
  let _ ← matchLit ".csv".data r5
  let group := (r0.take 10).asString
  some (y, m, d, group)

/-- Embedding of `re.search(file_pattern, filename)`: scan left to right
for the first position where the pattern matches, returning the captured
`YYYY-MM-DD` group of the leftmost match. -/
def reSearchDate : List Char → Option (Nat × Nat × Nat × String)
  | [] => none
  | c :: rest =>
    match matchDateCsvAt (c :: rest) with
    | some r => some r
    | none => reSearchDate rest

/-- Embedding of `datetime.strptime(group, "%Y-%m-%d")` applied to a
captured group `(y, m, d)`: the date is returned when it is a valid
`datetime` date (year 1–9999, month 1–12, day within the month), and the
`ValueError` raised otherwise is modelled by `Except.error` carrying the
offending group text. -/
def strptimeYmd (y m d : Nat) (group : String) : Except String PyDate :=
  if 1 ≤ y ∧ y ≤ 9999 ∧ 1 ≤ m ∧ m ≤ 12 ∧ 1 ≤ d ∧ d ≤ daysInMonth y m then
    .ok { y := y, m := m, d := d }
  else .error group

/-- Comparison `file_date > latest_date` of two `datetime` values that
carry only a `%Y-%m-%d` date: lexicographic on (year, month, day). -/
def dateLt (a b : PyDate) : Bool :=
  decide (a.y < b.y) ||
    (decide (a.y = b.y) &&
      (decide (a.m < b.m) || (decide (a.m = b.m) && decide (a.d < b.d))))

/-- Embedding of `os.path.join(folder_path, filename)` for a relative
filename. -/
def pathJoin (folder fname : String) : String := folder ++ "/" ++ fname

/-- The `for filename in os.listdir(folder_path)` loop of
`get_latest_file`, threading the `latest_file` / `latest_date` pair.
An invalid embedded date raises out of the loop (`Except.error`). -/
def latestFold (folder : String) :
    List String → Option (String × PyDate) → Except String (Option (String × PyDate))
  | [], acc => .ok acc
  | f :: fs, acc =>
    match reSearchDate f.data with
    | none => latestFold folder fs acc
    | some (y, m, d, group) =>
      match strptimeYmd y m d group with
      | .error e => .error e
      | .ok date =>
        let acc' :=
          match acc with
          | none => some (pathJoin folder f, date)
          | some (bestF, bestD) =>
            if dateLt bestD date then some (pathJoin folder f, date)
            else some (bestF, bestD)
        latestFold folder fs acc'

/-- Embedding of `get_latest_file(folder_path)`.  The file system is
modelled by `listing : Option (List String)`: `none` when
`os.path.exists(folder_path)` is false, otherwise the `os.listdir` result.
`Except.error` models the `ValueError` escaping from `strptime`;
`Except.ok none` models the `None` returns (folder missing, or no
matching file). -/
def getLatestFile (folder : String) (listing : Option (List String)) :
    Except String (Option String) :=
  match listing with
  | none => .ok none
  | some files =>
    match latestFold folder files none with
    | .error e => .error e
    | .ok acc => .ok (acc.map (fun p => p.1))

/-! ### String comparison and numpy's introspective quicksort

`DataProcessor.process_data` ends with
`formatted_df.fillna("").sort_values(by="Assignees").reset_index(drop=True)`.
For a single object (string) column, pandas' `sort_values` with the default
`kind='quicksort'` computes `nargsort`, which (there being no NaN left after
`fillna`) is numpy's `argsort(kind='quicksort')`, i.e. the introspective
quicksort `npy_aquicksort` over an index array, comparing cells with
Python's `<` on strings.  The functions below embed that algorithm:
median-of-3 quicksort partitioning down to segments of at most
`SMALL_QUICKSORT = 15` elements plus one extra slot, a depth limit of
`2 * floor(log2 n)` after which the segment is heapsorted, an explicit
segment stack, and a final insertion sort for the small segments.  Loops
are given ample fuel; the fuel is never exhausted on the executions the
theorems below talk about. -/

/-- Python's `<` on strings, compared character by character on code
points (shorter string is smaller on a tie prefix). -/
def ltChars : List Char → List Char → Bool
  | [], [] => false
  | [], _ :: _ => true
  | _ :: _, [] => false
  | a :: as, b :: bs =>
    if a.toNat < b.toNat then true
    else if b.toNat < a.toNat then false
    else ltChars as bs

/-- Python string comparison `a < b` used by the sort's compare function. -/
def pyStrLt (a b : String) : Bool := ltChars a.data b.data

/-- The index comparison of `npy_aquicksort`: indices `i`, `j` into the key
column compare by the keys they point at. -/
def ltIdx (keys : List String) (i j : Nat) : Bool :=
  pyStrLt (keys.getD i "") (keys.getD j "")

/-- Write position `i` twice to swap two entries of the index array
(`INTP_SWAP(*pi, *pj)`). -/
def lswap (l : List Nat) (i j : Nat) : List Nat :=
  let vi := l.getD i 0
  let vj := l.getD j 0
  (l.set i vj).set j vi

/-- The shifting scan of the insertion sort of `npy_aquicksort`, on the
reversed prefix: starting from the right end, entries whose key is
strictly greater than the key of `x` are shifted one slot to the right
(`while (pj > pl && cmp(vp, v[*pk]) < 0)`), and `x` is written into the
gap. -/
def shiftInsertRev (lt : Nat → Nat → Bool) (x : Nat) : List Nat → List Nat
  | [] => [x]
  | y :: ys => if lt x y then y :: shiftInsertRev lt x ys else x :: y :: ys

/-- Insert index `x` into the (already processed) prefix, C-style from the
right. -/
def cInsert (lt : Nat → Nat → Bool) (x : Nat) (l : List Nat) : List Nat :=
  (shiftInsertRev lt x l.reverse).reverse

/-- The insertion-sort pass of `npy_aquicksort` over one segment: each
element in turn is inserted into the sorted prefix. -/
def insertionPass (lt : Nat → Nat → Bool) (l : List Nat) : List Nat :=
  l.foldl (fun acc x => cInsert lt x acc) []

/-- The upward scan `do ++pi; while (cmp(v[*pi], vp) < 0)` of the
partition loop: increment, then keep incrementing while the key at the
scanned index is strictly less than the pivot key `vp`. -/
def scanUp (lt : Nat → Nat → Bool) (t : List Nat) (vp : Nat) : Nat → Nat → Nat
  | pi, 0 => pi + 1
  | pi, fuel + 1 =>
    let pi' := pi + 1
    if lt (t.getD pi' 0) vp then scanUp lt t vp pi' fuel else pi'

/-- The downward scan `do --pj; while (cmp(vp, v[*pj]) < 0)` of the
partition loop. -/
def scanDown (lt : Nat → Nat → Bool) (t : List Nat) (vp : Nat) : Nat → Nat → Nat
  | pj, 0 => pj - 1
  | pj, fuel + 1 =>
    let pj' := pj - 1
    if lt vp (t.getD pj' 0) then scanDown lt t vp pj' fuel else pj'

/-- The Hoare partition exchange loop of `npy_aquicksort`: scan up and
down, swap out-of-place pairs, stop when the scans cross; returns the
final index array and the crossing position `pi`. -/
def partLoop (lt : Nat → Nat → Bool) (vp : Nat) :
    List Nat → Nat → Nat → Nat → List Nat × Nat
  | t, pi, _, 0 => (t, pi)
  | t, pi, pj, fuel + 1 =>
    let pi' := scanUp lt t vp pi t.length
    let pj' := scanDown lt t vp pj t.length
    if pi' ≥ pj' then (t, pi')
    else partLoop lt vp (lswap t pi' pj') pi' pj' fuel

/-- One quicksort partition of `npy_aquicksort` on the segment
`[pl..pr]`: median-of-3 pivot selection with the accompanying swaps, the
pivot parked at `pr - 1`, the exchange loop, and the final swap placing
the pivot at the crossing point. -/
def partitionStep (lt : Nat → Nat → Bool) (t : List Nat) (pl pr : Nat) :
    List Nat × Nat :=
  let pm := pl + (pr - pl) / 2
  let t1 := if lt (t.getD pm 0) (t.getD pl 0) then lswap t pm pl else t
  let t2 := if lt (t1.getD pr 0) (t1.getD pm 0) then lswap t1 pr pm else t1
  let t3 := if lt (t2.getD pm 0) (t2.getD pl 0) then lswap t2 pm pl else t2
  let vp := t3.getD pm 0
  let pj := pr - 1
  let t4 := lswap t3 pm pj
  let r := partLoop lt vp t4 pl pj t4.length
  (lswap r.1 r.2 (pr - 1), r.2)

/-- The sift-down inner loop shared by both phases of `npy_aheapsort`
(1-based heap indices over the segment; `a[i]` is `seg.getD (i-1)`).
Returns the updated segment and the final hole position `i`. -/
def siftDown (lt : Nat → Nat → Bool) (tmp : Nat) (n : Nat) :
    List Nat → Nat → Nat → Nat → List Nat × Nat
  | seg, i, _, 0 => (seg, i)
  | seg, i, j, fuel + 1 =>
    if j ≤ n then
      let j' := if j < n && lt (seg.getD (j - 1) 0) (seg.getD j 0) then j + 1 else j
      if lt tmp (seg.getD (j' - 1) 0) then
        siftDown lt tmp n (seg.set (i - 1) (seg.getD (j' - 1) 0)) j' (2 * j') fuel
      else (seg, i)
    else (seg, i)

/-- The heap-construction phase of `npy_aheapsort`:
`for (l = n >> 1; l > 0; --l)`. -/
def heapBuild (lt : Nat → Nat → Bool) (n : Nat) : List Nat → Nat → List Nat
  | seg, 0 => seg
  | seg, l + 1 =>
    let lc := l + 1
    let tmp := seg.getD (lc - 1) 0
    let r := siftDown lt tmp n seg lc (2 * lc) (n + 2)
    heapBuild lt n (r.1.set (r.2 - 1) tmp) l

/-- The extraction phase of `npy_aheapsort`: `for (; n > 1;)`, repeatedly
moving the heap maximum to the end and sifting the displaced element
down. -/
def heapExtract (lt : Nat → Nat → Bool) : List Nat → Nat → List Nat
  | seg, 0 => seg
  | seg, 1 => seg
  | seg, n + 2 =>
    let nc := n + 2
    let tmp := seg.getD (nc - 1) 0
    let seg1 := seg.set (nc - 1) (seg.getD 0 0)
    let r := siftDown lt tmp (nc - 1) seg1 1 2 (nc + 2)
    heapExtract lt (r.1.set (r.2 - 1) tmp) (n + 1)

/-- `npy_aheapsort` run on one segment of the index array. -/
def heapSortList (lt : Nat → Nat → Bool) (seg : List Nat) : List Nat :=
  heapExtract lt (heapBuild lt seg.length seg (seg.length / 2)) seg.length

/-- Apply a segment-sorting function to the slice `[pl..pr]` of the index
array, leaving the rest in place (the C code sorts that slice in place). -/
def spliceSeg (f : List Nat → List Nat) (t : List Nat) (pl pr : Nat) : List Nat :=
  let g := f ((t.drop pl).take (pr + 1 - pl))
  t.take pl ++ g ++ t.drop (pl + g.length)

/-- `SMALL_QUICKSORT` of numpy: segments of at most 16 elements
(`pr - pl <= 15`) are left to the final insertion sort. -/
def SMALL_QUICKSORT : Nat := 15

/-- The inner `while ((pr - pl) > SMALL_QUICKSORT)` loop of
`npy_aquicksort`: check the depth limit (heapsort the segment when
exhausted), otherwise partition, push the larger side with the decremented
depth, and continue on the smaller side; a small segment is finished with
the insertion-sort pass.  Returns the index array and the remaining
segment/depth stacks. -/
def whileLoop (lt : Nat → Nat → Bool) :
    Nat → List Nat → Nat → Nat → List (Nat × Nat) → List Int → Int →
    List Nat × List (Nat × Nat) × List Int
  | 0, t, _, _, stk, dstk, _ => (t, stk, dstk)
  | fuel + 1, t, pl, pr, stk, dstk, cdepth =>
    if pr - pl > SMALL_QUICKSORT then
      if cdepth < 0 then
        (spliceSeg (heapSortList lt) t pl pr, stk, dstk)
      else
        let r := partitionStep lt t pl pr
        let pi := r.2
        if pi - pl < pr - pi then
          whileLoop lt fuel r.1 pl (pi - 1) ((pi + 1, pr) :: stk)
            ((cdepth - 1) :: dstk) (cdepth - 1)
        else
          whileLoop lt fuel r.1 (pi + 1) pr ((pl, pi - 1) :: stk)
            ((cdepth - 1) :: dstk) (cdepth - 1)
    else
      (spliceSeg (insertionPass lt) t pl pr, stk, dstk)

/-- The outer `for (;;)` loop of `npy_aquicksort`: run the inner loop on
the current segment, then pop the next segment and its saved depth from
the stacks, stopping when the stack is empty. -/
def outerLoop (lt : Nat → Nat → Bool) :
    Nat → List Nat → Nat → Nat → List (Nat × Nat) → List Int → Int → List Nat
  | 0, t, _, _, _, _, _ => t
  | fuel + 1, t, pl, pr, stk, dstk, cdepth =>
    let r := whileLoop lt (t.length + 2) t pl pr stk dstk cdepth
    match r.2.1, r.2.2 with
    | (pl', pr') :: srest, cd' :: drest => outerLoop lt fuel r.1 pl' pr' srest drest cd'
    | _, _ => r.1

/-- `npy_get_msb(num)`: index of the most significant set bit. -/
def npyGetMsb (n : Nat) : Nat := Nat.log2 n

/-- Embedding of `argsort(kind='quicksort')` on `n` keys compared by
`lt`: `npy_aquicksort` run on the index array `[0, ..., n-1]` with depth
limit `2 * npy_get_msb(n)`. -/
def npyAquicksort (lt : Nat → Nat → Bool) (n : Nat) : List Nat :=
  outerLoop lt (n + 2) (List.range n) 0 (n - 1) [] [] (2 * (npyGetMsb n : Int))

/-! ### The table and `DataProcessor.process_data` -/

/-- A pandas `DataFrame` as used by the script: named columns over rows of
cells (row `r`'s value in column `cols[j]` is `r.getD j none`). -/
structure DataFrame where
  cols : List String
  rows : List (List Cell)
deriving DecidableEq

/-- Column access `df[name]` as a list of cells: raises `KeyError(name)`
(modelled by `Except.error name`) when the column is absent. -/
def DataFrame.getCol (df : DataFrame) (name : String) : Except String (List Cell) :=
  if name ∈ df.cols then
    .ok (df.rows.map (fun r => r.getD (df.cols.indexOf name) none))
  else .error name

/-- The static `name_replacements` dictionary of `process_data`. -/
def name_replacements : List (String × String) :=
  [("dhanukakarunasena", "Dhanuka"),
   ("malcolmSansen", "Malcom"),
   ("shimizu39", "Prashanti"),
   ("shimizuSarun", "Saran"),
   ("SonSansen", "Son"),
   ("HtetSansen", "Htet")]

/-- `Series.replace(name_replacements)` on one cell: an exact string match
is replaced, anything else (including NaN) passes through. -/
def replaceCell (c : Cell) : Cell :=
  c.map (fun s => (name_replacements.lookup s).getD s)

/-- `fillna("")` on one cell. -/
def fillCell (c : Cell) : Cell := some (c.getD "")

/-- The column list of the formatted frame built by `process_data`, in
construction order. -/
def reportCols : List String :=
  ["Assignees", "Title", "タイトル", "body", "ボディー",
   "Repository", "Status", "plan start", "plan finish", "real start", "real finish"]

/-- Rebuild rows from a list of equal-length columns (the columns of
`formatted_df` share the input frame's index, so row `i` collects entry
`i` of every column). -/
def rowsOfCols (cols : List (List Cell)) (n : Nat) : List (List Cell) :=
  (List.range n).map (fun i => cols.map (fun c => c.getD i none))

/-- The sort key of a formatted row: its (renamed) `Assignees` cell, a
string after `fillna`. -/
def rowKey (r : List Cell) : String := (r.getD 0 none).getD ""

/-- Construction of `formatted_df` in `process_data`, followed by
`fillna("")`: the assignee rename, the eleven columns in source order with
the two `_batch_translate` calls threaded through the shared cache, and
the fill of missing cells.  Returns the filled rows and the translator
state; a missing source column raises `KeyError` (`Except.error` with the
column name). -/
def formattedTable (provider : Provider) (st : TransState) (df : DataFrame) :
    Except String (List (List Cell) × TransState) := do
  let assignees0 ← df.getCol "Assignees"
  let assignees := assignees0.map replaceCell
  let title ← df.getCol "Title"
  let titleJa := batch_translate provider st title "en" "ja"
  let body ← df.getCol "body"
  let bodyJa := batch_translate provider titleJa.2 body "en" "ja"
  let repo ← df.getCol "Repository"
  let status ← df.getCol "Status"
  let planStart ← df.getCol "plan start"
  let planFinish ← df.getCol "plan finish"
  let realStart ← df.getCol "real start"
  let realFinish ← df.getCol "real finish"
  let formatted := rowsOfCols
    [assignees, title, titleJa.1, body, bodyJa.1, repo, status,
     planStart, planFinish, realStart, realFinish] df.rows.length
  .ok (formatted.map (fun r => r.map fillCell), bodyJa.2)

/-- Embedding of `DataProcessor.process_data`: build and fill the
formatted frame, then
`sort_values(by="Assignees").reset_index(drop=True)` — `nargsort` (no NaN
remains after the fill) computes the quicksort argsort of the assignee
column and the frame is re-indexed by it. -/
def process_data (provider : Provider) (st : TransState) (df : DataFrame) :
    Except String (DataFrame × TransState) := do
  let ft ← formattedTable provider st df
  let filled := ft.1
  let keys := filled.map rowKey
  let indexer := npyAquicksort (ltIdx keys) keys.length
  .ok ({ cols := reportCols, rows := indexer.map (fun i => filled.getD i []) }, ft.2)

/-! ### Pipeline outcome (`load_data` failure handling, `generate_report`) -/

/-- Outcome of one run of `WeeklyProjectReport.generate_report`:
either the processed table reaches the publishing steps, or the process
terminates with a non-zero exit code and a diagnostic (either the
`sys.exit(1)` taken by `load_data` after printing the load error, or the
interpreter exiting with code 1 on the uncaught `KeyError` escaping
`process_data`). -/
inductive PipelineResult where
  | published (df : DataFrame) : PipelineResult
  | exited (code : Nat) (msg : String) : PipelineResult
deriving DecidableEq

/-- Embedding of the data path of `generate_report`: `load_data` (whose
`pd.read_csv` outcome is the parameter `csvResult`; on any exception it
prints the error and calls `sys.exit(1)`), then `process_data` (an
uncaught `KeyError` aborts the interpreter with exit code 1 before any
upload), and only then the publishing steps, which receive the processed
frame. -/
def generate_report (csvResult : Except String DataFrame) (provider : Provider)
    (st : TransState) : PipelineResult :=
  match csvResult with
  | .error e => .exited 1 ("Error loading CSV file: " ++ e)
  | .ok df =>
    match process_data provider st df with
    | .error col => .exited 1 ("KeyError: " ++ col)
    | .ok r => .published r.1

/-- The columns `process_data` reads from the loaded frame, in the order
it reads them. -/
def requiredCols : List String :=
  ["Assignees", "Title", "body", "Repository", "Status",
   "plan start", "plan finish", "real start", "real finish"]

/-- Position `k` lies inside the (inclusive) index segment `s`. -/
def inSeg (s : Nat × Nat) (k : Nat) : Prop := s.1 ≤ k ∧ k ≤ s.2

/-- Well-formedness of the pending-segment list of the introspective
quicksort: every segment is nonempty and within the index array, and the
segments are pairwise disjoint. -/
def SegsOK (n : Nat) (segs : List (Nat × Nat)) : Prop :=
  (∀ s ∈ segs, s.1 ≤ s.2 ∧ s.2 < n) ∧
  List.Pairwise (fun s1 s2 => s1.2 < s2.1 ∨ s2.2 < s1.1) segs

/-- The sorting invariant of the introspective quicksort: every pair of
positions that does not lie inside one common pending segment is already
in non-decreasing key order. -/
def CrossOK (lt : Nat → Nat → Bool) (t : List Nat) (segs : List (Nat × Nat)) : Prop :=
  ∀ i j, i < j → j < t.length → (∀ s ∈ segs, ¬ (inSeg s i ∧ inSeg s j)) →
    lt (t.getD j 0) (t.getD i 0) = false

/-- Total number of positions covered by a pending-segment list (the
termination mass: every partition burns one pivot position). -/
def segMass (segs : List (Nat × Nat)) : Nat :=
  (segs.map (fun s => s.2 - s.1 + 1)).sum

/-- One-based read of the heap segment (`a[k]` of `npy_aheapsort`, whose
`a` points one before the segment). -/
def aGet (s : List Nat) (k : Nat) : Nat := s.getD (k - 1) 0

/-- The max-heap edge at one-based node `j`: the parent key is not below
the child key. -/
def heapEdge (lt : Nat → Nat → Bool) (s : List Nat) (j : Nat) : Prop :=
  lt (aGet s (j / 2)) (aGet s j) = false

/-- A filename passes date validation when either it does not match the
pattern (so `strptime` is never reached) or its captured group is a valid
calendar date. -/
def validDateB (f : String) : Bool :=
  match reSearchDate f.data with
  | none => true
  | some (y, m, d, group) =>
    match strptimeYmd y m d group with
    | .ok _ => true
    | .error _ => false

/-- Every filename of the listing passes date validation. -/
def allDatesValid (files : List String) : Bool := files.all validDateB

/-- Filename `f` matches the pattern and its captured group parses to the
date `d`. -/
def MatchedDate (f : String) (d : PyDate) : Prop :=
  ∃ y m dd grp, reSearchDate f.data = some (y, m, dd, grp) ∧
    strptimeYmd y m dd grp = .ok d

/-- Date `d` is at least as late as the embedded date of every matching
file of the listing. -/
def DominatesAll (files : List String) (d : PyDate) : Prop :=
  ∀ g ∈ files, ∀ e, MatchedDate g e → dateLt d e = false

/-! ## Theorems -/

/-! ### Helper lemmas on the translator -/

/-- A NaN or blank cell passes through `translate_text` with no state
change. -/
theorem translate_text_blank (provider : Provider) (st : TransState)
    (src tgt : String) (c : Cell) (h : isBlankCell c = true) :
    translate_text provider st c src tgt = (c, st) := by
  cases c with
  | none => rfl
  | some s =>
    simp only [isBlankCell, decide_eq_true_eq] at h
    simp [translate_text, h]

/-- A blank cell normalises to the empty string. -/
theorem normalizeCell_blank (c : Cell) (h : isBlankCell c = true) :
    normalizeCell c = some "" := by
  cases c with
  | none => rfl
  | some s =>
    simp only [isBlankCell, decide_eq_true_eq] at h
    simp [normalizeCell, h]

/-- A cache lookup hit comes from an entry of the cache list. -/
theorem lookupCache_mem (l : List (CacheKey × String)) (k : CacheKey) (v : String)
    (h : lookupCache l k = some v) : (k, v) ∈ l := by
  induction l with
  | nil => simp [lookupCache] at h
  | cons p rest ih =>
    obtain ⟨k', v'⟩ := p
    by_cases hk : k' = k
    · subst hk
      simp [lookupCache] at h
      simp [h]
    · simp [lookupCache, hk] at h
      exact List.mem_cons_of_mem _ (ih h)

/-- Batch translation preserves the length of the text list. -/
theorem batch_translate_length (provider : Provider) (st : TransState)
    (texts : List Cell) (src tgt : String) :
    (batch_translate provider st texts src tgt).1.length = texts.length := by
  induction texts generalizing st with
  | nil => rfl
  | cons t ts ih => simp [batch_translate, ih]

/-- With a coherent cache, the value produced by `translate_text` does not
depend on the cache contents: it equals a translation from the empty
state. -/
theorem translate_text_coherent_value (provider : Provider) (st : TransState)
    (c : Cell) (src tgt : String) (hco : CoherentCache provider st) :
    (translate_text provider st c src tgt).1
      = (translate_text provider { cache := [], calls := 0 } c src tgt).1 := by
  cases c with
  | none => rfl
  | some s =>
    by_cases hb : pyStrip s = ""
    · simp [translate_text, hb]
    · cases hl : lookupCache st.cache (s, src, tgt) with
      | none =>
        simp [translate_text, hb, hl, lookupCache]
        cases hp : provider s src tgt <;> simp [hp]
      | some v =>
        have hv := hco _ _ (lookupCache_mem _ _ _ hl)
        simp [translate_text, hb, hl, lookupCache, hv]

/-- `translate_text` preserves cache coherence: it stores only successful
provider translations. -/
theorem translate_text_coherent_preserved (provider : Provider) (st : TransState)
    (c : Cell) (src tgt : String) (hco : CoherentCache provider st) :
    CoherentCache provider (translate_text provider st c src tgt).2 := by
  cases c with
  | none => exact hco
  | some s =>
    by_cases hb : pyStrip s = ""
    · simpa [translate_text, hb] using hco
    · cases hl : lookupCache st.cache (s, src, tgt) with
      | none =>
        cases hp : provider s src tgt with
        | none => simpa [translate_text, hb, hl, hp] using hco
        | some t =>
          simp only [translate_text, hb, hl, hp]
          intro k v hm
          rcases List.mem_cons.mp hm with hm | hm
          · have hk : k = (s, src, tgt) := congrArg Prod.fst hm
            have hv : v = t := congrArg Prod.snd hm
            subst hk; subst hv
            exact hp
          · exact hco _ _ hm
      | some v => simpa [translate_text, hb, hl] using hco

/-! ### C5 -/

/-- C5: a NaN, empty, or whitespace-only input passes through
`translate_text` unchanged, with no cache entry created and no provider
call (the translator state is returned untouched); in particular
`translate("", "en", "ja")` returns `""` without invoking the provider. -/
theorem c5_blank_translate_identity (provider : Provider) (st : TransState)
    (src tgt : String) (text : Cell) (h : isBlankCell text = true) :
    translate_text provider st text src tgt = (text, st) :=
  translate_text_blank provider st src tgt text h

/-- Witness for C5 at `translate("", "en", "ja")` with a stub provider. -/
theorem c5_blank_translate_identity_witness :
    isBlankCell (some "") = true ∧
    translate_text (fun s _ _ => some (s ++ "!")) { cache := [], calls := 0 }
        (some "") "en" "ja" = (some "", { cache := [], calls := 0 }) :=
  ⟨by decide,
    c5_blank_translate_identity (fun s _ _ => some (s ++ "!"))
      { cache := [], calls := 0 } "en" "ja" (some "") (by decide)⟩

/-! ### C4 -/

/-- C4: for a non-blank text whose provider call succeeds, two successive
`translate_text` calls with the same `(text, src, tgt)` key invoke the
provider at most once in total: after the first call the key is cached
with the returned value, and the second call returns the stored value with
the translator state (in particular the call counter) unchanged. -/
theorem c4_second_call_cached (provider : Provider) (st : TransState)
    (s src tgt t : String) (hs : pyStrip s ≠ "") (hp : provider s src tgt = some t) :
    ∃ v,
      lookupCache (translate_text provider st (some s) src tgt).2.cache
          (s, src, tgt) = some v ∧
      (translate_text provider st (some s) src tgt).1 = some v ∧
      translate_text provider (translate_text provider st (some s) src tgt).2
          (some s) src tgt
        = (some v, (translate_text provider st (some s) src tgt).2) ∧
      (translate_text provider st (some s) src tgt).2.calls ≤ st.calls + 1 := by
  cases hl : lookupCache st.cache (s, src, tgt) with
  | some v =>
    refine ⟨v, ?_, ?_, ?_, ?_⟩ <;> simp [translate_text, hs, hl]
  | none =>
    refine ⟨t, ?_, ?_, ?_, ?_⟩ <;>
      simp [translate_text, hs, hl, hp, lookupCache]

/-- Witness for C4: translating `"Hello"` twice from the empty cache with
a successful stub provider. -/
theorem c4_second_call_cached_witness :
    ∃ v,
      lookupCache (translate_text (fun s _ _ => some (s ++ "!"))
          { cache := [], calls := 0 } (some "Hello") "en" "ja").2.cache
          ("Hello", "en", "ja") = some v ∧
      (translate_text (fun s _ _ => some (s ++ "!")) { cache := [], calls := 0 }
          (some "Hello") "en" "ja").1 = some v ∧
      translate_text (fun s _ _ => some (s ++ "!"))
          (translate_text (fun s _ _ => some (s ++ "!")) { cache := [], calls := 0 }
            (some "Hello") "en" "ja").2 (some "Hello") "en" "ja"
        = (some v,
            (translate_text (fun s _ _ => some (s ++ "!")) { cache := [], calls := 0 }
              (some "Hello") "en" "ja").2) ∧
      (translate_text (fun s _ _ => some (s ++ "!")) { cache := [], calls := 0 }
          (some "Hello") "en" "ja").2.calls ≤ 0 + 1 :=
  c4_second_call_cached (fun s _ _ => some (s ++ "!")) { cache := [], calls := 0 }
    "Hello" "en" "ja" "Hello!" (by decide) rfl

/-! ### C2 -/

/-- C2 counterexample: with a provider that always raises, translating the
non-blank text `"Hello"` from the empty cache returns the original text,
but the cache remains empty — no cache entry for the key
`("Hello", "en", "ja")` holds the original text, contrary to the claim. -/
theorem c2_counterexample :
    translate_text (fun _ _ _ => none) { cache := [], calls := 0 }
        (some "Hello") "en" "ja"
      = (some "Hello", { cache := [], calls := 1 }) ∧
    lookupCache (translate_text (fun _ _ _ => none) { cache := [], calls := 0 }
        (some "Hello") "en" "ja").2.cache ("Hello", "en", "ja") = none := by
  exact ⟨rfl, rfl⟩

/-- C2 amended: for a non-blank uncached text whose provider call raises,
`translate_text` returns the original text unchanged (the exception is
absorbed, so the pipeline continues), and no cache entry is created for
the key — the cache is left exactly as it was, only the provider-call
counter advances. -/
theorem c2_failure_returns_original (provider : Provider) (st : TransState)
    (s src tgt : String) (hs : pyStrip s ≠ "")
    (hmiss : lookupCache st.cache (s, src, tgt) = none)
    (hp : provider s src tgt = none) :
    translate_text provider st (some s) src tgt
      = (some s, { cache := st.cache, calls := st.calls + 1 }) := by
  simp [translate_text, hs, hmiss, hp]

/-- Witness for the amended C2 at text `"Hello"` with an always-failing
provider. -/
theorem c2_failure_returns_original_witness :
    translate_text (fun _ _ _ => none) { cache := [], calls := 5 }
        (some "Hello") "en" "ja"
      = (some "Hello", { cache := [], calls := 5 + 1 }) :=
  c2_failure_returns_original (fun _ _ _ => none) { cache := [], calls := 5 }
    "Hello" "en" "ja" (by decide) rfl rfl

/-! ### C1 -/

/-- C1 counterexample: batch translation is not the identity on a
whitespace-only element — the element `" "` of the input list comes back
as `""`, because `_batch_translate` replaces blank elements by `""`
before translating. -/
theorem c1_counterexample :
    (batch_translate (fun _ _ _ => none) { cache := [], calls := 0 }
        [some " "] "en" "ja").1 = [some ""] ∧
    (some "" : Cell) ≠ some " " := by
  exact ⟨rfl, by decide⟩

/-- C1 amended: every NaN, empty, or whitespace-only element of the input
list is mapped to the empty string at the same position of the output (so
an empty element is returned unchanged, a whitespace-only element is
normalised to `""`), and the translation provider is never invoked for it:
the translator state of the whole batch equals that of the batch with the
element removed. -/
theorem c1_blank_batch_normalized (provider : Provider) (st : TransState)
    (texts : List Cell) (src tgt : String) (i : Nat) (h : i < texts.length)
    (hb : isBlankCell texts[i] = true) :
    (batch_translate provider st texts src tgt).1[i]? = some (some "") ∧
    (batch_translate provider st texts src tgt).2
      = (batch_translate provider st (texts.eraseIdx i) src tgt).2 := by
  induction texts generalizing st i with
  | nil => exact absurd h (Nat.not_lt_zero i)
  | cons t ts ih =>
    cases i with
    | zero =>
      have hn : normalizeCell t = some "" := normalizeCell_blank t hb
      have ht : translate_text provider st (normalizeCell t) src tgt = (some "", st) := by
        rw [hn]
        exact translate_text_blank provider st src tgt (some "") (by decide)
      simp [batch_translate, ht, List.eraseIdx]
    | succ j =>
      have hj : j < ts.length := Nat.lt_of_succ_lt_succ h
      have := ih (translate_text provider st (normalizeCell t) src tgt).2 j hj hb
      simp [batch_translate, List.eraseIdx, this.1, this.2]

/-- Witness for the amended C1: the whitespace-only second element of a
two-element batch. -/
theorem c1_blank_batch_normalized_witness :
    (batch_translate (fun _ _ _ => none) { cache := [], calls := 0 }
        [some "x", some " "] "en" "ja").1[1]? = some (some "") ∧
    (batch_translate (fun _ _ _ => none) { cache := [], calls := 0 }
        [some "x", some " "] "en" "ja").2
      = (batch_translate (fun _ _ _ => none) { cache := [], calls := 0 }
          ([some "x", some " "].eraseIdx 1) "en" "ja").2 :=
  c1_blank_batch_normalized (fun _ _ _ => none) { cache := [], calls := 0 }
    [some "x", some " "] "en" "ja" 1 (by decide) (by decide)

/-! ### C6 -/

/-- C6 counterexample: `_batch_translate` does not apply `translate_text`
element-wise — on the whitespace-only element `"\t"` the batch yields
`""` while `translate_text` yields `"\t"` unchanged. -/
theorem c6_counterexample :
    (batch_translate (fun _ _ _ => none) { cache := [], calls := 0 }
        [some "\t"] "en" "ja").1 = [some ""] ∧
    (translate_text (fun _ _ _ => none) { cache := [], calls := 0 }
        (some "\t") "en" "ja").1 = some "\t" ∧
    (some "" : Cell) ≠ some "\t" := by
  exact ⟨rfl, rfl, by decide⟩

/-- C6 amended: batch translation returns a list of the same length as
its input, and — whenever the starting cache is coherent with the
(deterministic) provider — the `i`-th output element is exactly
`translate_text` applied to the blank-normalised `i`-th input element
(computed independently, from the empty translator state), so input order
is preserved and each element's value is independent of the others. -/
theorem c6_batch_elementwise (provider : Provider) (st : TransState)
    (texts : List Cell) (src tgt : String) (hco : CoherentCache provider st) :
    (batch_translate provider st texts src tgt).1.length = texts.length ∧
    ∀ i, (h : i < texts.length) →
      (batch_translate provider st texts src tgt).1[i]?
        = some (translate_text provider { cache := [], calls := 0 }
            (normalizeCell texts[i]) src tgt).1 := by
  induction texts generalizing st with
  | nil =>
    exact ⟨rfl, fun i h => absurd h (Nat.not_lt_zero i)⟩
  | cons t ts ih =>
    have ih' := ih (translate_text provider st (normalizeCell t) src tgt).2
      (translate_text_coherent_preserved provider st (normalizeCell t) src tgt hco)
    refine ⟨by simp [batch_translate, ih'.1], ?_⟩
    intro i h
    cases i with
    | zero =>
      simp [batch_translate,
        translate_text_coherent_value provider st (normalizeCell t) src tgt hco]
    | succ j =>
      have hj : j < ts.length := Nat.lt_of_succ_lt_succ h
      simpa [batch_translate] using ih'.2 j hj

/-- Witness for the amended C6: a two-element batch from the empty
(trivially coherent) cache; the first element's result equals the
independent translation of its normalised value. -/
theorem c6_batch_elementwise_witness :
    (batch_translate (fun s _ _ => some (s ++ "!")) { cache := [], calls := 0 }
        [some "hey", some " "] "en" "ja").1.length = 2 ∧
    (batch_translate (fun s _ _ => some (s ++ "!")) { cache := [], calls := 0 }
        [some "hey", some " "] "en" "ja").1[0]?
      = some (translate_text (fun s _ _ => some (s ++ "!"))
          { cache := [], calls := 0 } (normalizeCell (some "hey")) "en" "ja").1 :=
  ⟨(c6_batch_elementwise (fun s _ _ => some (s ++ "!")) { cache := [], calls := 0 }
      [some "hey", some " "] "en" "ja" (fun k v hm => absurd hm (List.not_mem_nil _))).1,
   (c6_batch_elementwise (fun s _ _ => some (s ++ "!")) { cache := [], calls := 0 }
      [some "hey", some " "] "en" "ja" (fun k v hm => absurd hm (List.not_mem_nil _))).2
     0 (by decide)⟩

/-! ### C10 -/

/-- C10: `save_config` updates only the fields given truthy values.
Saving with only an email (credential argument `None` or `""`) leaves the
stored `credential_file` unchanged; saving with only a credential file
(email argument `None` or `""`) leaves the stored `email` unchanged; and a
truthy value does overwrite its own field.  This holds for every prior
state of the configuration file. -/
theorem c10_save_config_frame (store : Option Config) (e c : String) :
    (load_config (save_config store (some e) none)).credential_file
        = (load_config store).credential_file ∧
    (load_config (save_config store (some e) (some ""))).credential_file
        = (load_config store).credential_file ∧
    (load_config (save_config store none (some c))).email
        = (load_config store).email ∧
    (load_config (save_config store (some "") (some c))).email
        = (load_config store).email ∧
    load_config (save_config store none none) = load_config store ∧
    (e ≠ "" → (load_config (save_config store (some e) none)).email = some e) ∧
    (c ≠ "" → (load_config (save_config store none (some c))).credential_file
        = some c) := by
  by_cases he : e = "" <;> by_cases hc : c = "" <;>
    simp [save_config, load_config, truthyStr, he, hc]

/-! ### Helper lemmas on dates and the locator fold -/

/-- Unfold the boolean date comparison into arithmetic. -/
theorem dateLt_iff (a b : PyDate) :
    dateLt a b = true ↔
      (a.y < b.y ∨ (a.y = b.y ∧ (a.m < b.m ∨ (a.m = b.m ∧ a.d < b.d)))) := by
  simp [dateLt]

/-- `>` on dates is irreflexive. -/
theorem dateLt_irrefl (a : PyDate) : dateLt a a = false := by
  rw [Bool.eq_false_iff]
  intro h
  rw [dateLt_iff] at h
  omega

/-- If `b` beats `a` and `c` does not lose to `b`, then `c` does not lose
to `a`. -/
theorem dateLt_false_of_lt_of_ge (a b c : PyDate)
    (h1 : dateLt a b = true) (h2 : dateLt c b = false) : dateLt c a = false := by
  rw [dateLt_iff] at h1
  rw [Bool.eq_false_iff] at h2 ⊢
  intro h3
  apply h2
  rw [dateLt_iff] at h3 ⊢
  omega


/-- Not losing to `b` and `b` not losing to `c` gives not losing to `c`. -/
theorem dateLt_false_trans (a b c : PyDate)
    (h1 : dateLt a b = false) (h2 : dateLt b c = false) : dateLt a c = false := by
  rw [Bool.eq_false_iff] at h1 h2 ⊢
  simp only [Ne, dateLt_iff] at h1 h2 ⊢
  omega

/-- Specification of the `get_latest_file` loop: when every remaining
filename passes date validation, the fold succeeds, its accumulator is
empty exactly when it started empty and nothing matched, and a final best
entry dominates every matched date, dominates the starting accumulator,
and is either the join of a matching file or the starting accumulator
itself. -/
theorem latestFold_spec (folder : String) (files : List String)
    (hv : ∀ f ∈ files, validDateB f = true) (acc : Option (String × PyDate)) :
    ∃ acc', latestFold folder files acc = .ok acc' ∧
      (acc' = none ↔ (acc = none ∧ ∀ f ∈ files, reSearchDate f.data = none)) ∧
      ∀ p d, acc' = some (p, d) →
        DominatesAll files d ∧
        (∀ q dq, acc = some (q, dq) → dateLt d dq = false) ∧
        ((∃ f ∈ files, MatchedDate f d ∧ p = pathJoin folder f) ∨ acc = some (p, d)) := by
  induction files generalizing acc with
  | nil =>
    refine ⟨acc, rfl, by simp, ?_⟩
    intro p d hpd
    refine ⟨fun g hg => absurd hg (List.not_mem_nil g), ?_, Or.inr hpd⟩
    intro q dq hq
    rw [hpd] at hq
    have hd : d = dq := congrArg (fun x => (x.getD (p, d)).2) hq
    rw [← hd]
    exact dateLt_irrefl d
  | cons f fs ih =>
    have hvf : validDateB f = true := hv f (List.mem_cons_self f fs)
    have hvfs : ∀ g ∈ fs, validDateB g = true :=
      fun g hg => hv g (List.mem_cons_of_mem f hg)
    cases hm : reSearchDate f.data with
    | none =>
      obtain ⟨acc', hfold, hiff, hbest⟩ := ih hvfs acc
      refine ⟨acc', by simp [latestFold, hm, hfold], ?_, ?_⟩
      · rw [hiff]
        constructor
        · rintro ⟨h1, h2⟩
          refine ⟨h1, ?_⟩
          intro g hg
          rcases List.mem_cons.mp hg with rfl | hg
          · exact hm
          · exact h2 g hg
        · rintro ⟨h1, h2⟩
          exact ⟨h1, fun g hg => h2 g (List.mem_cons_of_mem f hg)⟩
      · intro p d hpd
        obtain ⟨hdom, hacc, hex⟩ := hbest p d hpd
        refine ⟨?_, hacc, ?_⟩
        · intro g hg e he
          rcases List.mem_cons.mp hg with rfl | hg
          · obtain ⟨y', m', d', grp', hg', _⟩ := he
            rw [hm] at hg'
            exact absurd hg' (Option.noConfusion)
          · exact hdom g hg e he
        · rcases hex with ⟨g, hg, hmd, hp⟩ | h
          · exact Or.inl ⟨g, List.mem_cons_of_mem f hg, hmd, hp⟩
          · exact Or.inr h
    | some quad =>
      obtain ⟨y, m, dd, grp⟩ := quad
      have hs : ∃ date, strptimeYmd y m dd grp = .ok date := by
        cases hst : strptimeYmd y m dd grp with
        | ok date => exact ⟨date, rfl⟩
        | error e =>
          exfalso
          have hvf' : validDateB f = true := hvf
          unfold validDateB at hvf'
          rw [hm] at hvf'
          have hred : (match strptimeYmd y m dd grp with
              | .ok _ => true
              | .error _ => false) = true := hvf'
          rw [hst] at hred
          simp at hred
      obtain ⟨date, hst⟩ := hs
      have hmdf : MatchedDate f date := ⟨y, m, dd, grp, hm, hst⟩
      have huniq : ∀ e, MatchedDate f e → e = date := by
        rintro e ⟨y', m', d', grp', he, hse⟩
        rw [hm] at he
        simp only [Option.some.injEq, Prod.mk.injEq] at he
        obtain ⟨rfl, rfl, rfl, rfl⟩ := he
        rw [hst] at hse
        exact (Except.ok.inj hse).symm
      cases acc with
      | none =>
        obtain ⟨acc', hfold, hiff, hbest⟩ := ih hvfs (some (pathJoin folder f, date))
        refine ⟨acc', by simp [latestFold, hm, hst, hfold], ?_, ?_⟩
        · rw [hiff]
          constructor
          · intro hfalse
            exact absurd hfalse.1 (by simp)
          · rintro ⟨-, hall⟩
            exact absurd (hall f (List.mem_cons_self f fs)) (by rw [hm]; simp)
        · intro p d hpd
          obtain ⟨hdom, hacc, hex⟩ := hbest p d hpd
          have hdd : dateLt d date = false := hacc (pathJoin folder f) date rfl
          refine ⟨?_, by rintro q dq ⟨⟩, ?_⟩
          · intro g hg e he
            rcases List.mem_cons.mp hg with rfl | hg
            · rw [huniq e he]; exact hdd
            · exact hdom g hg e he
          · rcases hex with ⟨g, hg, hmd, hp⟩ | h
            · exact Or.inl ⟨g, List.mem_cons_of_mem f hg, hmd, hp⟩
            · have hp : pathJoin folder f = p := congrArg (fun x => (x.getD (p, d)).1) h
              have hd : date = d := congrArg (fun x => (x.getD (p, d)).2) h
              subst hp; subst hd
              exact Or.inl ⟨f, List.mem_cons_self f fs, hmdf, rfl⟩
      | some best =>
        obtain ⟨bestF, bestD⟩ := best
        cases hcmp : dateLt bestD date with
        | true =>
          obtain ⟨acc', hfold, hiff, hbest⟩ := ih hvfs (some (pathJoin folder f, date))
          refine ⟨acc', by simp [latestFold, hm, hst, hcmp, hfold], ?_, ?_⟩
          · rw [hiff]
            constructor
            · intro hfalse
              exact absurd hfalse.1 (by simp)
            · rintro ⟨hfalse, -⟩
              exact absurd hfalse (by simp)
          · intro p d hpd
            obtain ⟨hdom, hacc, hex⟩ := hbest p d hpd
            have hdd : dateLt d date = false := hacc (pathJoin folder f) date rfl
            refine ⟨?_, ?_, ?_⟩
            · intro g hg e he
              rcases List.mem_cons.mp hg with rfl | hg
              · rw [huniq e he]; exact hdd
              · exact hdom g hg e he
            · rintro q dq hq
              have hdq : bestD = dq := congrArg (fun x => (x.getD (q, dq)).2) hq
              rw [← hdq]
              exact dateLt_false_of_lt_of_ge bestD date d hcmp hdd
            · rcases hex with ⟨g, hg, hmd, hp⟩ | h
              · exact Or.inl ⟨g, List.mem_cons_of_mem f hg, hmd, hp⟩
              · have hp : pathJoin folder f = p := congrArg (fun x => (x.getD (p, d)).1) h
                have hd : date = d := congrArg (fun x => (x.getD (p, d)).2) h
                subst hp; subst hd
                exact Or.inl ⟨f, List.mem_cons_self f fs, hmdf, rfl⟩
        | false =>
          obtain ⟨acc', hfold, hiff, hbest⟩ := ih hvfs (some (bestF, bestD))
          refine ⟨acc', by simp [latestFold, hm, hst, hcmp, hfold], ?_, ?_⟩
          · rw [hiff]
            constructor
            · intro hfalse
              exact absurd hfalse.1 (by simp)
            · rintro ⟨hfalse, -⟩
              exact absurd hfalse (by simp)
          · intro p d hpd
            obtain ⟨hdom, hacc, hex⟩ := hbest p d hpd
            have hdbest : dateLt d bestD = false := hacc bestF bestD rfl
            refine ⟨?_, ?_, ?_⟩
            · intro g hg e he
              rcases List.mem_cons.mp hg with rfl | hg
              · rw [huniq e he]
                exact dateLt_false_trans d bestD date hdbest hcmp
              · exact hdom g hg e he
            · rintro q dq hq
              have hdq : bestD = dq := congrArg (fun x => (x.getD (q, dq)).2) hq
              rw [← hdq]
              exact hdbest
            · rcases hex with ⟨g, hg, hmd, hp⟩ | h
              · exact Or.inl ⟨g, List.mem_cons_of_mem f hg, hmd, hp⟩
              · exact Or.inr h

/-! ### C7 -/

/-- C7 counterexample: a directory containing
`project_2024-00-10.csv` (its name matches the pattern, but month `00` is
not a valid calendar date) makes `get_latest_file` raise the `ValueError`
from `strptime` instead of returning either a path or the absence signal
`None` — even though `project_2024-01-01.csv`, a well-dated match, is also
present. -/
theorem c7_counterexample :
    getLatestFile "dir" (some ["project_2024-00-10.csv", "project_2024-01-01.csv"])
      = .error "2024-00-10" ∧
    (getLatestFile "dir"
        (some ["project_2024-00-10.csv", "project_2024-01-01.csv"])).toOption
      = none := by
  exact ⟨rfl, rfl⟩

/-- C7 amended: `get_latest_file` returns `None` (never an exception) when
the directory does not exist; and on a directory listing in which every
pattern-matching filename embeds a valid calendar date, it returns without
an exception: `None` exactly when no filename matches, and otherwise the
join of the directory with a matching filename whose embedded date is
chronologically greatest among all matching filenames.  (When a matching
filename embeds an invalid date, `strptime` raises instead, as the
counterexample shows.) -/
theorem c7_latest_file (folder : String) (files : List String)
    (hv : allDatesValid files = true) :
    getLatestFile folder none = .ok none ∧
    ∃ r, getLatestFile folder (some files) = .ok r ∧
      (r = none ↔ ∀ f ∈ files, reSearchDate f.data = none) ∧
      ∀ p, r = some p →
        ∃ f ∈ files, ∃ d, MatchedDate f d ∧ p = pathJoin folder f ∧
          DominatesAll files d := by
  have hv' : ∀ f ∈ files, validDateB f = true := by
    intro f hf
    exact List.all_eq_true.mp hv f hf
  obtain ⟨acc', hfold, hiff, hbest⟩ := latestFold_spec folder files hv' none
  refine ⟨rfl, acc'.map (fun x => x.1), ?_, ?_, ?_⟩
  · simp only [getLatestFile, hfold]
  · rw [Option.map_eq_none']
    rw [hiff]
    simp
  · intro p hp
    rw [Option.map_eq_some'] at hp
    obtain ⟨⟨q, d⟩, hq, hp1⟩ := hp
    obtain ⟨hdom, -, hex⟩ := hbest q d hq
    rcases hex with ⟨f, hf, hmd, hjoin⟩ | h
    · exact ⟨f, hf, d, hmd, hp1 ▸ hjoin, hdom⟩
    · exact absurd h (by simp)

/-- Witness for the amended C7: a directory with no matching filename
yields the absence signal `.ok none`. -/
theorem c7_latest_file_witness :
    getLatestFile "dir" (some ["readme.txt"]) = .ok none := by
  obtain ⟨-, r, hr, hiff, -⟩ := c7_latest_file "dir" ["readme.txt"] (by decide)
  rw [hiff.mpr (by decide)] at hr
  exact hr

/-! ### C9 -/

/-- C9: a directory containing `project_2024-13-01.csv` — a filename that
matches the locator's regular expression but embeds the invalid calendar
month `13` — makes `get_latest_file` raise the `ValueError` from
`datetime.strptime` (modelled by `Except.error` carrying the offending
group) instead of returning a path or the absence signal. -/
theorem c9_invalid_date_raises :
    reSearchDate "project_2024-13-01.csv".data = some (2024, 13, 1, "2024-13-01") ∧
    getLatestFile "dir" (some ["project_2024-13-01.csv"]) = .error "2024-13-01" ∧
    (getLatestFile "dir" (some ["project_2024-13-01.csv"])).toOption = none := by
  exact ⟨rfl, rfl, rfl⟩

/-! ### C8 -/

/-- Reduction of a successful monadic bind in `Except`. -/
theorem except_bind_ok {ε α β : Type} (a : α) (f : α → Except ε β) :
    (Except.ok a : Except ε α) >>= f = f a := rfl

/-- Reduction of a failing monadic bind in `Except`. -/
theorem except_bind_error {ε α β : Type} (e : ε) (f : α → Except ε β) :
    (Except.error e : Except ε α) >>= f = Except.error e := rfl

/-- A required column missing from the loaded frame makes `process_data`
raise `KeyError` for the first missing column in read order. -/
theorem process_data_missing_column (provider : Provider) (st : TransState)
    (df : DataFrame) (c : String) (hcr : c ∈ requiredCols) (hmiss : c ∉ df.cols) :
    ∃ c', c' ∈ requiredCols ∧ c' ∉ df.cols ∧
      process_data provider st df = .error c' := by
  by_cases h1 : "Assignees" ∈ df.cols
  · by_cases h2 : "Title" ∈ df.cols
    · by_cases h3 : "body" ∈ df.cols
      · by_cases h4 : "Repository" ∈ df.cols
        · by_cases h5 : "Status" ∈ df.cols
          · by_cases h6 : "plan start" ∈ df.cols
            · by_cases h7 : "plan finish" ∈ df.cols
              · by_cases h8 : "real start" ∈ df.cols
                · by_cases h9 : "real finish" ∈ df.cols
                  · exfalso
                    simp only [requiredCols, List.mem_cons,
                      List.not_mem_nil, or_false] at hcr
                    rcases hcr with rfl | rfl | rfl | rfl | rfl | rfl | rfl | rfl | rfl <;>
                      contradiction
                  · exact ⟨"real finish", by simp [requiredCols], h9,
                      by simp [process_data, formattedTable, DataFrame.getCol, except_bind_ok, except_bind_error,
                        h1, h2, h3, h4, h5, h6, h7, h8, h9]⟩
                · exact ⟨"real start", by simp [requiredCols], h8,
                    by simp [process_data, formattedTable, DataFrame.getCol, except_bind_ok, except_bind_error,
                      h1, h2, h3, h4, h5, h6, h7, h8]⟩
              · exact ⟨"plan finish", by simp [requiredCols], h7,
                  by simp [process_data, formattedTable, DataFrame.getCol, except_bind_ok, except_bind_error,
                    h1, h2, h3, h4, h5, h6, h7]⟩
            · exact ⟨"plan start", by simp [requiredCols], h6,
                by simp [process_data, formattedTable, DataFrame.getCol, except_bind_ok, except_bind_error,
                  h1, h2, h3, h4, h5, h6]⟩
          · exact ⟨"Status", by simp [requiredCols], h5,
              by simp [process_data, formattedTable, DataFrame.getCol, except_bind_ok, except_bind_error,
                h1, h2, h3, h4, h5]⟩
        · exact ⟨"Repository", by simp [requiredCols], h4,
            by simp [process_data, formattedTable, DataFrame.getCol, except_bind_ok, except_bind_error, h1, h2, h3, h4]⟩
      · exact ⟨"body", by simp [requiredCols], h3,
          by simp [process_data, formattedTable, DataFrame.getCol, except_bind_ok, except_bind_error, h1, h2, h3]⟩
    · exact ⟨"Title", by simp [requiredCols], h2,
        by simp [process_data, formattedTable, DataFrame.getCol, except_bind_ok, except_bind_error, h1, h2]⟩
  · exact ⟨"Assignees", by simp [requiredCols], h1,
      by simp [process_data, formattedTable, DataFrame.getCol, except_bind_ok, except_bind_error, h1]⟩

/-- C8: a CSV that cannot be parsed, or a loaded table missing a required
column, is fatal.  An unparseable CSV makes `load_data` print the load
error and exit with code 1; a missing required column makes `process_data`
raise an uncaught `KeyError` naming a missing required column, terminating
the run with exit code 1; in both cases no report reaches the publishing
steps. -/
theorem c8_bad_input_fatal (provider : Provider) (st : TransState) :
    (∀ e : String, generate_report (.error e) provider st
        = .exited 1 ("Error loading CSV file: " ++ e)) ∧
    (∀ df c, process_data provider st df = .error c →
        generate_report (.ok df) provider st = .exited 1 ("KeyError: " ++ c)) ∧
    (∀ df c, c ∈ requiredCols → c ∉ df.cols →
        ∃ c', c' ∈ requiredCols ∧ c' ∉ df.cols ∧
          generate_report (.ok df) provider st = .exited 1 ("KeyError: " ++ c')) ∧
    (∀ e df', generate_report (.error e) provider st ≠ .published df') ∧
    (∀ df c df', process_data provider st df = .error c →
        generate_report (.ok df) provider st ≠ .published df') := by
  refine ⟨fun e => rfl, ?_, ?_, fun e df' => by simp [generate_report], ?_⟩
  · intro df c h
    simp [generate_report, h]
  · intro df c hcr hmiss
    obtain ⟨c', hc1, hc2, hc3⟩ := process_data_missing_column provider st df c hcr hmiss
    exact ⟨c', hc1, hc2, by simp [generate_report, hc3]⟩
  · intro df c df' h
    simp [generate_report, h]

/-- Witness for C8: a failing CSV load with error text `"boom"`, and a
one-column table missing all required columns. -/
theorem c8_bad_input_fatal_witness :
    generate_report (.error "boom") (fun _ _ _ => none) { cache := [], calls := 0 }
      = .exited 1 ("Error loading CSV file: " ++ "boom") ∧
    ∃ c', c' ∈ requiredCols ∧ c' ∉ (DataFrame.mk ["x"] []).cols ∧
      generate_report (.ok (DataFrame.mk ["x"] [])) (fun _ _ _ => none)
          { cache := [], calls := 0 }
        = .exited 1 ("KeyError: " ++ c') :=
  ⟨(c8_bad_input_fatal (fun _ _ _ => none) { cache := [], calls := 0 }).1 "boom",
   (c8_bad_input_fatal (fun _ _ _ => none) { cache := [], calls := 0 }).2.2.1
     (DataFrame.mk ["x"] []) "Assignees" (by decide) (by decide)⟩

/-! ### Order lemmas for the Python string comparison -/

/-- The code-point comparison is irreflexive. -/
theorem ltChars_irrefl : ∀ as : List Char, ltChars as as = false
  | [] => rfl
  | a :: as => by
    simp [ltChars, ltChars_irrefl as]

/-- The code-point comparison is asymmetric. -/
theorem ltChars_asymm : ∀ as bs : List Char,
    ltChars as bs = true → ltChars bs as = false
  | [], [], h => by simp [ltChars] at h
  | [], _ :: _, _ => by simp [ltChars]
  | _ :: _, [], h => by simp [ltChars] at h
  | a :: as, b :: bs, h => by
    simp only [ltChars] at h ⊢
    by_cases hab : a.toNat < b.toNat
    · rw [if_neg (by omega : ¬ b.toNat < a.toNat), if_pos hab]
    · by_cases hba : b.toNat < a.toNat
      · rw [if_neg hab, if_pos hba] at h
        simp at h
      · rw [if_neg hab, if_neg hba] at h
        rw [if_neg hba, if_neg hab]
        exact ltChars_asymm as bs h

/-- If `as` is below `bs` and `cs` is not below `bs`, then `as` is below
`cs` (the mixed transitivity used by the sortedness proofs). -/
theorem ltChars_lt_of_lt_of_nlt : ∀ as bs cs : List Char,
    ltChars as bs = true → ltChars cs bs = false → ltChars as cs = true
  | [], [], _, h1, _ => by simp [ltChars] at h1
  | [], _ :: _, [], _, h2 => by simp [ltChars] at h2
  | [], _ :: _, _ :: _, _, _ => by simp [ltChars]
  | _ :: _, [], _, h1, _ => by simp [ltChars] at h1
  | _ :: _, _ :: _, [], _, h2 => by simp [ltChars] at h2
  | a :: as, b :: bs, c :: cs, h1, h2 => by
    simp only [ltChars] at h1 h2 ⊢
    by_cases hab : a.toNat < b.toNat
    · by_cases hcb : c.toNat < b.toNat
      · rw [if_pos hcb] at h2
        simp at h2
      · rw [if_pos (by omega : a.toNat < c.toNat)]
    · by_cases hba : b.toNat < a.toNat
      · rw [if_neg hab, if_pos hba] at h1
        simp at h1
      · by_cases hcb : c.toNat < b.toNat
        · rw [if_pos hcb] at h2
          simp at h2
        · by_cases hbc : b.toNat < c.toNat
          · rw [if_pos (by omega : a.toNat < c.toNat)]
          · rw [if_neg hab, if_neg hba] at h1
            rw [if_neg hcb, if_neg hbc] at h2
            rw [if_neg (by omega : ¬ a.toNat < c.toNat),
              if_neg (by omega : ¬ c.toNat < a.toNat)]
            exact ltChars_lt_of_lt_of_nlt as bs cs h1 h2

/-- Python string `<` is irreflexive. -/
theorem pyStrLt_irrefl (a : String) : pyStrLt a a = false := ltChars_irrefl a.data

/-- Python string `<` is asymmetric. -/
theorem pyStrLt_asymm (a b : String) (h : pyStrLt a b = true) :
    pyStrLt b a = false := ltChars_asymm a.data b.data h

/-- Mixed transitivity for Python string `<`. -/
theorem pyStrLt_lt_of_lt_of_nlt (a b c : String) (h1 : pyStrLt a b = true)
    (h2 : pyStrLt c b = false) : pyStrLt a c = true :=
  ltChars_lt_of_lt_of_nlt a.data b.data c.data h1 h2

/-! ### The insertion-sort pass: length, sortedness, stability -/

/-- The shifting insertion adds exactly one element. -/
theorem shiftInsertRev_length (lt : Nat → Nat → Bool) (x : Nat) :
    ∀ l : List Nat, (shiftInsertRev lt x l).length = l.length + 1
  | [] => rfl
  | y :: ys => by
    simp only [shiftInsertRev]
    split
    · simp [shiftInsertRev_length lt x ys]
    · simp

/-- `cInsert` adds exactly one element. -/
theorem cInsert_length (lt : Nat → Nat → Bool) (x : Nat) (l : List Nat) :
    (cInsert lt x l).length = l.length + 1 := by
  simp [cInsert, shiftInsertRev_length]

/-- The insertion-sort pass preserves length. -/
theorem insertionPass_length (lt : Nat → Nat → Bool) (l : List Nat) :
    (insertionPass lt l).length = l.length := by
  suffices h : ∀ l acc : List Nat,
      (l.foldl (fun a x => cInsert lt x a) acc).length = acc.length + l.length by
    simpa [insertionPass] using h l []
  intro l
  induction l with
  | nil => simp
  | cons x xs ih =>
    intro acc
    simp only [List.foldl_cons, ih, cInsert_length, List.length_cons]
    omega

/-- The shifting insertion keeps the reversed segment sorted
(`Pairwise (not below)` on the reversed order). -/
theorem shiftInsertRev_pairwise (lt : Nat → Nat → Bool)
    (ha : ∀ a b, lt a b = true → lt b a = false)
    (hm : ∀ a b c, lt a b = true → lt c b = false → lt a c = true) (x : Nat) :
    ∀ l : List Nat, List.Pairwise (fun a b => lt a b = false) l →
      List.Pairwise (fun a b => lt a b = false) (shiftInsertRev lt x l)
  | [], _ => by simp [shiftInsertRev]
  | y :: ys, hl => by
    obtain ⟨hy, hys⟩ := List.pairwise_cons.mp hl
    simp only [shiftInsertRev]
    split
    case isTrue hxy =>
      refine List.pairwise_cons.mpr ⟨?_, shiftInsertRev_pairwise lt ha hm x ys hys⟩
      intro z hz
      have hz' : z ∈ x :: ys := by
        have hperm : ∀ l : List Nat, ∀ z, z ∈ shiftInsertRev lt x l → z ∈ x :: l := by
          intro l
          induction l with
          | nil => intro z hz; simpa [shiftInsertRev] using hz
          | cons w ws ihw =>
            intro z hz
            simp only [shiftInsertRev] at hz
            split at hz
            · rcases List.mem_cons.mp hz with rfl | hz
              · simp
              · rcases List.mem_cons.mp (ihw z hz) with rfl | hz
                · simp
                · simp [hz]
            · rcases List.mem_cons.mp hz with rfl | hz
              · simp
              · simp [hz]
        exact hperm ys z hz
      rcases List.mem_cons.mp hz' with rfl | hz'
      · exact ha z y hxy
      · exact hy z hz'
    case isFalse hxy =>
      have hxy' : lt x y = false := by
        cases h : lt x y
        · rfl
        · exact absurd h hxy
      refine List.pairwise_cons.mpr ⟨?_, hl⟩
      intro z hz
      rcases List.mem_cons.mp hz with rfl | hz
      · exact hxy'
      · cases h : lt x z
        · rfl
        · exact absurd (hm x z y h (hy z hz)) (by simp [hxy'])

/-- `cInsert` keeps a segment sorted (no later element strictly below an
earlier one). -/
theorem cInsert_sorted (lt : Nat → Nat → Bool)
    (ha : ∀ a b, lt a b = true → lt b a = false)
    (hm : ∀ a b c, lt a b = true → lt c b = false → lt a c = true)
    (x : Nat) (l : List Nat)
    (hl : List.Pairwise (fun a b => lt b a = false) l) :
    List.Pairwise (fun a b => lt b a = false) (cInsert lt x l) := by
  rw [cInsert, List.pairwise_reverse]
  exact shiftInsertRev_pairwise lt ha hm x l.reverse
    (List.pairwise_reverse.mpr hl)

/-- The full insertion pass sorts the segment. -/
theorem insertionPass_sorted (lt : Nat → Nat → Bool)
    (ha : ∀ a b, lt a b = true → lt b a = false)
    (hm : ∀ a b c, lt a b = true → lt c b = false → lt a c = true)
    (l : List Nat) :
    List.Pairwise (fun a b => lt b a = false) (insertionPass lt l) := by
  suffices h : ∀ l acc : List Nat, List.Pairwise (fun a b => lt b a = false) acc →
      List.Pairwise (fun a b => lt b a = false)
        (l.foldl (fun a x => cInsert lt x a) acc) by
    exact h l [] List.Pairwise.nil
  intro l
  induction l with
  | nil => exact fun acc hacc => hacc
  | cons x xs ih =>
    intro acc hacc
    exact ih (cInsert lt x acc) (cInsert_sorted lt ha hm x acc hacc)

/-- Filtering after a shifting insertion of an element of the filtered
class: the element lands after all its class mates. -/
theorem shiftInsertRev_filter_pos (lt : Nat → Nat → Bool) (q : Nat → Bool)
    (x : Nat) (hqx : q x = true) (hq : ∀ y, q y = true → lt x y = false) :
    ∀ l : List Nat, (shiftInsertRev lt x l).filter q = x :: l.filter q
  | [] => by simp [shiftInsertRev, hqx]
  | y :: ys => by
    simp only [shiftInsertRev]
    split
    case isTrue hxy =>
      have hqy : q y = false := by
        cases h : q y
        · rfl
        · exact absurd (hq y h) (by simp [hxy])
      simp [List.filter_cons, hqy, shiftInsertRev_filter_pos lt q x hqx hq ys]
    case isFalse hxy =>
      simp [List.filter_cons, hqx]

/-- Filtering after a shifting insertion of an element outside the
filtered class leaves the filtered list unchanged. -/
theorem shiftInsertRev_filter_neg (lt : Nat → Nat → Bool) (q : Nat → Bool)
    (x : Nat) (hqx : q x = false) :
    ∀ l : List Nat, (shiftInsertRev lt x l).filter q = l.filter q
  | [] => by simp [shiftInsertRev, hqx]
  | y :: ys => by
    simp only [shiftInsertRev]
    split
    · simp [List.filter_cons, shiftInsertRev_filter_neg lt q x hqx ys]
    · simp [List.filter_cons, hqx]

/-- Filter through `cInsert`, in-class case: the inserted element lands
after all earlier elements of its class. -/
theorem cInsert_filter_pos (lt : Nat → Nat → Bool) (q : Nat → Bool) (x : Nat)
    (hqx : q x = true) (hq : ∀ y, q y = true → lt x y = false) (l : List Nat) :
    (cInsert lt x l).filter q = l.filter q ++ [x] := by
  rw [cInsert, List.filter_reverse, shiftInsertRev_filter_pos lt q x hqx hq,
    List.reverse_cons, List.filter_reverse, List.reverse_reverse]

/-- Filter through `cInsert`, out-of-class case. -/
theorem cInsert_filter_neg (lt : Nat → Nat → Bool) (q : Nat → Bool) (x : Nat)
    (hqx : q x = false) (l : List Nat) :
    (cInsert lt x l).filter q = l.filter q := by
  rw [cInsert, List.filter_reverse, shiftInsertRev_filter_neg lt q x hqx,
    List.filter_reverse, List.reverse_reverse]

/-- Stability of the insertion pass: for a class `q` whose members never
compare strictly below one another, the pass preserves the relative order
of the class members. -/
theorem insertionPass_filter (lt : Nat → Nat → Bool) (q : Nat → Bool)
    (hk : ∀ x y, q x = true → q y = true → lt x y = false) (l : List Nat) :
    (insertionPass lt l).filter q = l.filter q := by
  suffices h : ∀ l acc : List Nat,
      ((l.foldl (fun a x => cInsert lt x a) acc).filter q)
        = acc.filter q ++ l.filter q by
    simpa [insertionPass] using h l []
  intro l
  induction l with
  | nil => simp
  | cons x xs ih =>
    intro acc
    rw [List.foldl_cons, ih (cInsert lt x acc)]
    cases hqx : q x with
    | true =>
      rw [cInsert_filter_pos lt q x hqx (fun y hy => hk x y hqx hy),
        List.filter_cons_of_pos hqx]
      simp
    | false =>
      rw [cInsert_filter_neg lt q x hqx, List.filter_cons_of_neg (by simp [hqx])]

/-! ### Length preservation through the introspective quicksort -/

/-- Swapping two entries preserves length. -/
theorem lswap_length (l : List Nat) (i j : Nat) :
    (lswap l i j).length = l.length := by
  simp [lswap]

/-- The partition exchange loop preserves length. -/
theorem partLoop_length (lt : Nat → Nat → Bool) (vp : Nat) :
    ∀ (fuel : Nat) (t : List Nat) (pi pj : Nat),
      (partLoop lt vp t pi pj fuel).1.length = t.length
  | 0, t, _, _ => rfl
  | fuel + 1, t, pi, pj => by
    simp only [partLoop]
    split
    · rfl
    · rw [partLoop_length lt vp fuel _ _ _, lswap_length]

/-- One partition step preserves length. -/
theorem partitionStep_length (lt : Nat → Nat → Bool) (t : List Nat) (pl pr : Nat) :
    (partitionStep lt t pl pr).1.length = t.length := by
  simp only [partitionStep]
  rw [lswap_length, partLoop_length, lswap_length]
  repeat' split
  all_goals simp [lswap_length]

/-- The sift-down loop of the heapsort preserves length. -/
theorem siftDown_length (lt : Nat → Nat → Bool) (tmp n : Nat) :
    ∀ (fuel : Nat) (seg : List Nat) (i j : Nat),
      (siftDown lt tmp n seg i j fuel).1.length = seg.length
  | 0, seg, _, _ => rfl
  | fuel + 1, seg, i, j => by
    simp only [siftDown]
    repeat' split
    all_goals
      first
        | rfl
        | rw [siftDown_length lt tmp n fuel _ _ _, List.length_set]

/-- The heap-construction phase preserves length. -/
theorem heapBuild_length (lt : Nat → Nat → Bool) (n : Nat) :
    ∀ (l : Nat) (seg : List Nat), (heapBuild lt n seg l).length = seg.length
  | 0, seg => rfl
  | l + 1, seg => by
    simp only [heapBuild]
    rw [heapBuild_length lt n l _, List.length_set, siftDown_length]

/-- The heap-extraction phase preserves length. -/
theorem heapExtract_length (lt : Nat → Nat → Bool) :
    ∀ (n : Nat) (seg : List Nat), (heapExtract lt seg n).length = seg.length
  | 0, seg => rfl
  | 1, seg => rfl
  | n + 2, seg => by
    simp only [heapExtract]
    rw [heapExtract_length lt (n + 1) _, List.length_set, siftDown_length,
      List.length_set]

/-- `npy_aheapsort` on a segment preserves length. -/
theorem heapSortList_length (lt : Nat → Nat → Bool) (seg : List Nat) :
    (heapSortList lt seg).length = seg.length := by
  simp [heapSortList, heapExtract_length, heapBuild_length]

/-- Splicing a length-preserving segment sorter into the index array
preserves the array's length. -/
theorem spliceSeg_length (f : List Nat → List Nat)
    (hf : ∀ s, (f s).length = s.length) (t : List Nat) (pl pr : Nat) :
    (spliceSeg f t pl pr).length = t.length := by
  simp only [spliceSeg, List.length_append, List.length_take, List.length_drop, hf]
  omega

/-- The inner loop of the introspective quicksort preserves the index
array's length. -/
theorem whileLoop_length (lt : Nat → Nat → Bool) :
    ∀ (fuel : Nat) (t : List Nat) (pl pr : Nat) (stk : List (Nat × Nat))
      (dstk : List Int) (cdepth : Int),
      (whileLoop lt fuel t pl pr stk dstk cdepth).1.length = t.length
  | 0, t, _, _, _, _, _ => rfl
  | fuel + 1, t, pl, pr, stk, dstk, cdepth => by
    simp only [whileLoop]
    split
    · split
      · exact spliceSeg_length _ (heapSortList_length lt) t pl pr
      · split
        · rw [whileLoop_length lt fuel _ _ _ _ _ _, partitionStep_length]
        · rw [whileLoop_length lt fuel _ _ _ _ _ _, partitionStep_length]
    · exact spliceSeg_length _ (insertionPass_length lt) t pl pr

/-- The outer loop of the introspective quicksort preserves the index
array's length. -/
theorem outerLoop_length (lt : Nat → Nat → Bool) :
    ∀ (fuel : Nat) (t : List Nat) (pl pr : Nat) (stk : List (Nat × Nat))
      (dstk : List Int) (cdepth : Int),
      (outerLoop lt fuel t pl pr stk dstk cdepth).length = t.length
  | 0, t, _, _, _, _, _ => rfl
  | fuel + 1, t, pl, pr, stk, dstk, cdepth => by
    simp only [outerLoop]
    split
    · rw [outerLoop_length lt fuel _ _ _ _ _ _, whileLoop_length]
    · exact whileLoop_length lt _ t pl pr stk dstk cdepth

/-- The argsort returns exactly `n` indices, for every key comparison and
every `n`. -/
theorem npyAquicksort_length (lt : Nat → Nat → Bool) (n : Nat) :
    (npyAquicksort lt n).length = n := by
  rw [npyAquicksort, outerLoop_length, List.length_range]

/-! ### Small arrays: the introsort reduces to one insertion pass -/

/-- Splicing the whole array through a length-preserving sorter is just
the sorter. -/
theorem spliceSeg_whole (f : List Nat → List Nat)
    (hf : ∀ s, (f s).length = s.length) (t : List Nat) :
    spliceSeg f t 0 (t.length - 1) = f t := by
  cases t with
  | nil =>
    have h0 : f [] = [] := List.length_eq_zero.mp (hf [])
    simp [spliceSeg, h0]
  | cons x xs =>
    have h1 : (x :: xs).length - 1 + 1 - 0 = (x :: xs).length := by simp
    simp only [spliceSeg, List.drop_zero, List.take_zero, List.nil_append, h1,
      List.take_length, hf, List.drop_length, List.append_nil, Nat.zero_add]

/-- On at most 16 keys (`pr - pl ≤ SMALL_QUICKSORT` immediately), the
introspective quicksort is exactly one insertion-sort pass over the index
array `[0, ..., n-1]`. -/
theorem npyAquicksort_le16 (lt : Nat → Nat → Bool) (n : Nat) (h : n ≤ 16) :
    npyAquicksort lt n = insertionPass lt (List.range n) := by
  have hng : ¬ SMALL_QUICKSORT < n - 1 := by
    simp only [SMALL_QUICKSORT]
    omega
  have hw : whileLoop lt ((List.range n).length + 2) (List.range n) 0 (n - 1) [] []
      (2 * (npyGetMsb n : Int))
      = (spliceSeg (insertionPass lt) (List.range n) 0 (n - 1), [], []) := by
    rw [show (List.range n).length + 2 = ((List.range n).length + 1) + 1 from rfl]
    rw [whileLoop]
    simp [hng]
  have ho : npyAquicksort lt n
      = spliceSeg (insertionPass lt) (List.range n) 0 (n - 1) := by
    rw [npyAquicksort, show n + 2 = (n + 1) + 1 from rfl, outerLoop, hw]
  rw [ho, show n - 1 = (List.range n).length - 1 by simp]
  exact spliceSeg_whole _ (insertionPass_length lt) (List.range n)

/-! ### Shape of `process_data` -/

/-- Unfolding of `process_data` on a successful `formattedTable`. -/
theorem process_data_eq (provider : Provider) (st : TransState) (df : DataFrame)
    (filled : List (List Cell)) (st2 : TransState)
    (hft : formattedTable provider st df = .ok (filled, st2)) :
    process_data provider st df
      = .ok ({ cols := reportCols,
               rows := (npyAquicksort (ltIdx (filled.map rowKey))
                   (filled.map rowKey).length).map (fun i => filled.getD i []) },
             st2) := by
  simp [process_data, hft, except_bind_ok]

/-- A successful `formattedTable` has exactly one row per input row. -/
theorem formattedTable_ok_length (provider : Provider) (st : TransState)
    (df : DataFrame) (filled : List (List Cell)) (st2 : TransState)
    (hft : formattedTable provider st df = .ok (filled, st2)) :
    filled.length = df.rows.length := by
  simp only [formattedTable] at hft
  cases h1 : df.getCol "Assignees" <;> rw [h1] at hft <;>
    [simp [except_bind_error] at hft; rw [except_bind_ok] at hft]
  cases h2 : df.getCol "Title" <;> rw [h2] at hft <;>
    [simp [except_bind_error] at hft; rw [except_bind_ok] at hft]
  cases h3 : df.getCol "body" <;> rw [h3] at hft <;>
    [simp [except_bind_error] at hft; rw [except_bind_ok] at hft]
  cases h4 : df.getCol "Repository" <;> rw [h4] at hft <;>
    [simp [except_bind_error] at hft; rw [except_bind_ok] at hft]
  cases h5 : df.getCol "Status" <;> rw [h5] at hft <;>
    [simp [except_bind_error] at hft; rw [except_bind_ok] at hft]
  cases h6 : df.getCol "plan start" <;> rw [h6] at hft <;>
    [simp [except_bind_error] at hft; rw [except_bind_ok] at hft]
  cases h7 : df.getCol "plan finish" <;> rw [h7] at hft <;>
    [simp [except_bind_error] at hft; rw [except_bind_ok] at hft]
  cases h8 : df.getCol "real start" <;> rw [h8] at hft <;>
    [simp [except_bind_error] at hft; rw [except_bind_ok] at hft]
  cases h9 : df.getCol "real finish" <;> rw [h9] at hft <;>
    [simp [except_bind_error] at hft; rw [except_bind_ok] at hft]
  have hlen := congrArg (fun x : List (List Cell) × TransState => x.1.length)
    (Except.ok.inj hft)
  simp only [List.length_map, rowsOfCols, List.length_range] at hlen
  exact hlen.symm

/-- Reading the `i`-th key through the key column equals the key of the
`i`-th row (out of range, both default to `""`). -/
theorem getD_map_rowKey (filled : List (List Cell)) (i : Nat) :
    (filled.map rowKey).getD i "" = rowKey (filled.getD i []) := by
  simp only [List.getD_eq_getElem?_getD, List.getElem?_map]
  cases h : filled[i]? with
  | none => simp [h, rowKey]
  | some r => simp [h]

/-- Reading every position of a list through `getD` over its range
reproduces the list. -/
theorem map_getD_range {α : Type} (l : List α) (d : α) :
    (List.range l.length).map (fun i => l.getD i d) = l := by
  apply List.ext_getElem
  · simp
  · intro n h1 h2
    simp only [List.getElem_map, List.getElem_range, List.getD_eq_getElem?_getD,
      List.getElem?_eq_getElem h2, Option.getD_some]

/-! ### C3 -/

/-- C3 counterexample: a 17-row table whose rows all carry the same
assignee `"a"` and pairwise distinct titles `"0" … "16"`.  A stable sort
would leave the rows in their original order (all sort keys are equal),
but `sort_values` with the default `kind='quicksort'` runs numpy's
introspective quicksort, whose first partition scrambles the tied rows:
the title column comes out as `0,14,13,…` instead of `0,1,2,…`.  So the
sort is not stable, refuting the claim as stated. -/
theorem c3_counterexample :
    (process_data (fun _ _ _ => none) { cache := [], calls := 0 }
        (DataFrame.mk
          ["Assignees", "Title", "body", "Repository", "Status",
           "plan start", "plan finish", "real start", "real finish"]
          ((List.range 17).map (fun i =>
            [some "a", some (toString i), none, none, none, none, none, none,
             none])))).map (fun x => x.1.rows.map (fun r => r.getD 0 none))
      = .ok (List.replicate 17 (some "a")) ∧
    (process_data (fun _ _ _ => none) { cache := [], calls := 0 }
        (DataFrame.mk
          ["Assignees", "Title", "body", "Repository", "Status",
           "plan start", "plan finish", "real start", "real finish"]
          ((List.range 17).map (fun i =>
            [some "a", some (toString i), none, none, none, none, none, none,
             none])))).map (fun x => x.1.rows.map (fun r => r.getD 1 none))
      = .ok [some "0", some "14", some "13", some "12", some "11", some "10",
          some "9", some "15", some "8", some "6", some "5", some "4",
          some "3", some "2", some "1", some "7", some "16"] ∧
    ([some "0", some "14", some "13", some "12", some "11", some "10",
        some "9", some "15", some "8", some "6", some "5", some "4",
        some "3", some "2", some "1", some "7", some "16"] : List Cell)
      ≠ ((List.range 17).map (fun i =>
          [some "a", some (toString i), none, none, none, none, none, none,
           none])).map (fun r => r.getD 1 none) := by
  refine ⟨rfl, rfl, by decide⟩

/-! ### Generic consequences of asymmetry and mixed transitivity -/

/-- An asymmetric comparison is irreflexive. -/
theorem blt_irrefl (lt : Nat → Nat → Bool)
    (ha : ∀ a b, lt a b = true → lt b a = false) (a : Nat) : lt a a = false := by
  cases h : lt a a
  · rfl
  · exact absurd (ha a a h) (by simp [h])

/-- Not-below is transitive. -/
theorem blt_negtrans (lt : Nat → Nat → Bool)
    (hm : ∀ a b c, lt a b = true → lt c b = false → lt a c = true)
    (a b c : Nat) (h1 : lt a b = false) (h2 : lt b c = false) : lt a c = false := by
  cases h : lt a c
  · rfl
  · exact absurd (hm a c b h h2) (by simp [h1])

/-- The strict comparison is transitive. -/
theorem blt_trans (lt : Nat → Nat → Bool)
    (ha : ∀ a b, lt a b = true → lt b a = false)
    (hm : ∀ a b c, lt a b = true → lt c b = false → lt a c = true)
    (a b c : Nat) (h1 : lt a b = true) (h2 : lt b c = true) : lt a c = true :=
  hm a b c h1 (ha b c h2)

/-! ### Access lemmas for `getD`, `set`, `lswap`, slices and `spliceSeg` -/

/-- In-bounds `getD` is `getElem`. -/
theorem getD_eq_getElem (l : List Nat) (k : Nat) (h : k < l.length) :
    l.getD k 0 = l[k] := by
  simp [List.getD_eq_getElem?_getD, List.getElem?_eq_getElem h]

/-- An in-bounds `getD` value is an element of the list. -/
theorem getD_mem (l : List Nat) (k : Nat) (h : k < l.length) : l.getD k 0 ∈ l := by
  rw [getD_eq_getElem l k h]
  exact List.getElem_mem h

/-- Reading a freshly written position. -/
theorem getD_set_eq (l : List Nat) (k : Nat) (x : Nat) (h : k < l.length) :
    (l.set k x).getD k 0 = x := by
  simp [List.getD_eq_getElem?_getD, List.getElem?_set_self h]

/-- Reading any other position after a write. -/
theorem getD_set_ne (l : List Nat) (k k' : Nat) (x : Nat) (h : k ≠ k') :
    (l.set k x).getD k' 0 = l.getD k' 0 := by
  simp [List.getD_eq_getElem?_getD, List.getElem?_set_ne h]

/-- Writing back the value already present changes nothing. -/
theorem set_getD_self (l : List Nat) (k : Nat) (h : k < l.length) :
    l.set k (l.getD k 0) = l := by
  apply List.ext_getElem?
  intro n
  by_cases hn : k = n
  · subst hn
    rw [List.getElem?_set_self h, getD_eq_getElem l k h, List.getElem?_eq_getElem h]
  · rw [List.getElem?_set_ne hn]

/-- The first swapped position receives the second value. -/
theorem lswap_getD_fst (l : List Nat) (i j : Nat) (hi : i < l.length) (hij : i ≠ j) :
    (lswap l i j).getD i 0 = l.getD j 0 := by
  simp only [lswap]
  rw [getD_set_ne _ j i _ (fun h => hij h.symm), getD_set_eq _ i _ hi]

/-- The second swapped position receives the first value. -/
theorem lswap_getD_snd (l : List Nat) (i j : Nat) (hj : j < l.length) :
    (lswap l i j).getD j 0 = l.getD i 0 := by
  simp only [lswap]
  rw [getD_set_eq _ j _ (by simpa using hj)]

/-- Positions other than the two swapped ones are unchanged. -/
theorem lswap_getD_other (l : List Nat) (i j k : Nat) (hik : k ≠ i) (hjk : k ≠ j) :
    (lswap l i j).getD k 0 = l.getD k 0 := by
  simp only [lswap]
  rw [getD_set_ne _ j k _ (fun h => hjk h.symm), getD_set_ne _ i k _ (fun h => hik h.symm)]

/-- Swapping a position with itself changes nothing. -/
theorem lswap_self (l : List Nat) (k : Nat) (h : k < l.length) : lswap l k k = l := by
  simp only [lswap]
  rw [List.set_set, set_getD_self l k h]

/-- Swapping two in-bounds positions introduces no new values. -/
theorem lswap_mem (l : List Nat) (i j : Nat) (hi : i < l.length) (hj : j < l.length) :
    ∀ v ∈ lswap l i j, v ∈ l := by
  intro v hv
  simp only [lswap] at hv
  rcases List.mem_or_eq_of_mem_set hv with hv | rfl
  · rcases List.mem_or_eq_of_mem_set hv with hv | rfl
    · exact hv
    · exact getD_mem l j hj
  · exact getD_mem l i hi

/-- Reading a position of the extracted segment slice. -/
theorem slice_getD (t : List Nat) (pl pr k : Nat) (hk : k < pr + 1 - pl) :
    ((t.drop pl).take (pr + 1 - pl)).getD k 0 = t.getD (pl + k) 0 := by
  simp only [List.getD_eq_getElem?_getD]
  rw [List.getElem?_take_of_lt hk, List.getElem?_drop]

/-- Length of the extracted segment slice. -/
theorem slice_length (t : List Nat) (pl pr : Nat) (hpl : pl ≤ pr) (hpr : pr < t.length) :
    ((t.drop pl).take (pr + 1 - pl)).length = pr + 1 - pl := by
  simp only [List.length_take, List.length_drop]
  omega

/-- Reading a position outside the spliced segment. -/
theorem spliceSeg_getD_out (f : List Nat → List Nat)
    (hf : ∀ s, (f s).length = s.length) (t : List Nat) (pl pr k : Nat)
    (hpl : pl ≤ pr) (hpr : pr < t.length) (hout : k < pl ∨ pr < k) :
    (spliceSeg f t pl pr).getD k 0 = t.getD k 0 := by
  have hg : (f ((t.drop pl).take (pr + 1 - pl))).length = pr + 1 - pl := by
    rw [hf, slice_length t pl pr hpl hpr]
  have hA : (t.take pl).length = pl := by
    rw [List.length_take]
    omega
  simp only [spliceSeg, List.getD_eq_getElem?_getD]
  rcases hout with hk | hk
  · rw [List.getElem?_append_left (by rw [List.length_append, hA, hg]; omega),
      List.getElem?_append_left (by rw [hA]; omega),
      List.getElem?_take_of_lt (by omega)]
  · rw [List.getElem?_append_right (by rw [List.length_append, hA, hg]; omega),
      List.getElem?_drop]
    have hidx : pl + (f ((t.drop pl).take (pr + 1 - pl))).length
        + (k - (t.take pl ++ f ((t.drop pl).take (pr + 1 - pl))).length) = k := by
      rw [List.length_append, hA, hg]
      omega
    rw [hidx]

/-- Reading a position inside the spliced segment. -/
theorem spliceSeg_getD_in (f : List Nat → List Nat)
    (hf : ∀ s, (f s).length = s.length) (t : List Nat) (pl pr k : Nat)
    (hpl : pl ≤ pr) (hpr : pr < t.length) (hin1 : pl ≤ k) (hin2 : k ≤ pr) :
    (spliceSeg f t pl pr).getD k 0
      = (f ((t.drop pl).take (pr + 1 - pl))).getD (k - pl) 0 := by
  have hg : (f ((t.drop pl).take (pr + 1 - pl))).length = pr + 1 - pl := by
    rw [hf, slice_length t pl pr hpl hpr]
  have hA : (t.take pl).length = pl := by
    rw [List.length_take]
    omega
  simp only [spliceSeg, List.getD_eq_getElem?_getD]
  rw [List.getElem?_append_left (by rw [List.length_append, hA, hg]; omega),
    List.getElem?_append_right (by rw [hA]; omega), hA]

/-! ### Value subsets through the segment sorters -/

/-- Values of a shifting insertion are the inserted element or old
values. -/
theorem shiftInsertRev_mem (lt : Nat → Nat → Bool) (x : Nat) :
    ∀ l : List Nat, ∀ z ∈ shiftInsertRev lt x l, z = x ∨ z ∈ l
  | [], z, hz => by simpa [shiftInsertRev] using hz
  | y :: ys, z, hz => by
    simp only [shiftInsertRev] at hz
    split at hz
    · rcases List.mem_cons.mp hz with rfl | hz
      · exact Or.inr (List.mem_cons_self z ys)
      · rcases shiftInsertRev_mem lt x ys z hz with h | h
        · exact Or.inl h
        · exact Or.inr (List.mem_cons_of_mem y h)
    · rcases List.mem_cons.mp hz with rfl | hz
      · exact Or.inl rfl
      · exact Or.inr hz

/-- Values of a C-style insertion are the inserted element or old
values. -/
theorem cInsert_mem (lt : Nat → Nat → Bool) (x : Nat) (l : List Nat) :
    ∀ z ∈ cInsert lt x l, z = x ∨ z ∈ l := by
  intro z hz
  rw [cInsert, List.mem_reverse] at hz
  rcases shiftInsertRev_mem lt x l.reverse z hz with h | h
  · exact Or.inl h
  · exact Or.inr (List.mem_reverse.mp h)

/-- The insertion pass introduces no new values. -/
theorem insertionPass_subset (lt : Nat → Nat → Bool) (l : List Nat) :
    ∀ z ∈ insertionPass lt l, z ∈ l := by
  suffices h : ∀ l acc : List Nat, ∀ z ∈ l.foldl (fun a x => cInsert lt x a) acc,
      z ∈ acc ∨ z ∈ l by
    intro z hz
    rcases h l [] z hz with h' | h'
    · exact absurd h' (List.not_mem_nil z)
    · exact h'
  intro l
  induction l with
  | nil => exact fun acc z hz => Or.inl hz
  | cons x xs ih =>
    intro acc z hz
    rcases ih (cInsert lt x acc) z hz with h' | h'
    · rcases cInsert_mem lt x acc z h' with h'' | h''
      · exact Or.inr (h'' ▸ List.mem_cons_self x xs)
      · exact Or.inl h''
    · exact Or.inr (List.mem_cons_of_mem x h')

/-- The insertion pass yields a segment sorted in position order. -/
theorem insertionPass_sorted_getD (lt : Nat → Nat → Bool)
    (ha : ∀ a b, lt a b = true → lt b a = false)
    (hm : ∀ a b c, lt a b = true → lt c b = false → lt a c = true)
    (l : List Nat) :
    ∀ a b, a < b → b < (insertionPass lt l).length →
      lt ((insertionPass lt l).getD b 0) ((insertionPass lt l).getD a 0) = false := by
  intro a b hab hb
  have hp := insertionPass_sorted lt ha hm l
  rw [List.pairwise_iff_getElem] at hp
  rw [getD_eq_getElem _ b hb, getD_eq_getElem _ a (Nat.lt_trans hab hb)]
  exact hp a b (Nat.lt_trans hab hb) hb hab

/-- A value of the segment slice is a value of the array at a position of
the segment. -/
theorem slice_mem (t : List Nat) (pl pr : Nat) (v : Nat)
    (hv : v ∈ (t.drop pl).take (pr + 1 - pl)) :
    ∃ k, pl ≤ k ∧ k ≤ pr ∧ t.getD k 0 = v := by
  obtain ⟨m, hm, heq⟩ := List.mem_iff_getElem.mp hv
  have hmlt : m < pr + 1 - pl := by
    have := hm
    simp only [List.length_take, List.length_drop] at this
    omega
  refine ⟨pl + m, Nat.le_add_right pl m, by omega, ?_⟩
  rw [← slice_getD t pl pr m hmlt, List.getD_eq_getElem?_getD,
    List.getElem?_eq_getElem hm, Option.getD_some, heq]

/-! ### The scans of the Hoare partition loop -/

/-- `scanUp` stops at the first index past `pi` whose key is not below the
pivot key, provided one exists within `fuel` steps: the result is past
`pi`, at most that stopper, its key is not below `vp`, and every strictly
skipped key is below `vp`. -/
theorem scanUp_spec (lt : Nat → Nat → Bool) (t : List Nat) (vp : Nat) :
    ∀ fuel pi s, pi < s → s ≤ pi + fuel → lt (t.getD s 0) vp = false →
      pi < scanUp lt t vp pi fuel ∧ scanUp lt t vp pi fuel ≤ s ∧
      lt (t.getD (scanUp lt t vp pi fuel) 0) vp = false ∧
      (∀ k, pi < k → k < scanUp lt t vp pi fuel → lt (t.getD k 0) vp = true) := by
  intro fuel
  induction fuel with
  | zero => intro pi s h1 h2 _; omega
  | succ fuel ih =>
    intro pi s h1 h2 hs
    by_cases hc : lt (t.getD (pi + 1) 0) vp = true
    · have hne : pi + 1 ≠ s := by
        intro he
        rw [he, hs] at hc
        exact Bool.false_ne_true hc
      have hlt : pi + 1 < s := by omega
      have hrec := ih (pi + 1) s hlt (by omega) hs
      have hu : scanUp lt t vp pi (fuel + 1) = scanUp lt t vp (pi + 1) fuel := by
        simp only [scanUp]
        rw [if_pos hc]
      rw [hu]
      refine ⟨by omega, hrec.2.1, hrec.2.2.1, ?_⟩
      intro k hk1 hk2
      rcases Nat.lt_or_ge (pi + 1) k with h | h
      · exact hrec.2.2.2 k h hk2
      · have : k = pi + 1 := by omega
        rw [this]
        exact hc
    · have hu : scanUp lt t vp pi (fuel + 1) = pi + 1 := by
        simp only [scanUp]
        rw [if_neg hc]
      rw [hu]
      exact ⟨by omega, by omega, Bool.not_eq_true _ ▸ hc, by omega⟩

/-- `scanDown` stops at the first index below `pj` whose key is not above
the pivot key, provided one exists within `fuel` steps. -/
theorem scanDown_spec (lt : Nat → Nat → Bool) (t : List Nat) (vp : Nat) :
    ∀ fuel pj s, s < pj → pj ≤ s + fuel → lt vp (t.getD s 0) = false →
      s ≤ scanDown lt t vp pj fuel ∧ scanDown lt t vp pj fuel < pj ∧
      lt vp (t.getD (scanDown lt t vp pj fuel) 0) = false ∧
      (∀ k, scanDown lt t vp pj fuel < k → k < pj → lt vp (t.getD k 0) = true) := by
  intro fuel
  induction fuel with
  | zero => intro pj s h1 h2 _; omega
  | succ fuel ih =>
    intro pj s h1 h2 hs
    by_cases hc : lt vp (t.getD (pj - 1) 0) = true
    · have hne : pj - 1 ≠ s := by
        intro he
        rw [he, hs] at hc
        exact Bool.false_ne_true hc
      have hlt : s < pj - 1 := by omega
      have hrec := ih (pj - 1) s hlt (by omega) hs
      have hu : scanDown lt t vp pj (fuel + 1) = scanDown lt t vp (pj - 1) fuel := by
        simp only [scanDown]
        rw [if_pos hc]
      rw [hu]
      refine ⟨hrec.1, by omega, hrec.2.2.1, ?_⟩
      intro k hk1 hk2
      rcases Nat.lt_or_ge k (pj - 1) with h | h
      · exact hrec.2.2.2 k hk1 h
      · have : k = pj - 1 := by omega
        rw [this]
        exact hc
    · have hu : scanDown lt t vp pj (fuel + 1) = pj - 1 := by
        simp only [scanDown]
        rw [if_neg hc]
      rw [hu]
      exact ⟨by omega, by omega, Bool.not_eq_true _ ▸ hc, by omega⟩

/-- The Hoare exchange loop: fed a segment whose ends are sentinels for
the pivot key, it returns a crossing index strictly inside `(pl, pr - 1]`
with everything left of the crossing not above the pivot and everything
from the crossing up to `pr - 1` not below it; positions outside
`[pl, pr - 2]` are untouched, and the segment keeps its values. -/
theorem partLoop_spec (lt : Nat → Nat → Bool)
    (ha : ∀ a b, lt a b = true → lt b a = false) (vp pl pr : Nat) :
    ∀ fuel t pi pj t1 u, partLoop lt vp t pi pj fuel = (t1, u) →
      pl ≤ pi → pi < pj → pj ≤ pr - 1 → pr < t.length → pj - pi ≤ fuel →
      (∀ k, pl ≤ k → k ≤ pi → lt vp (t.getD k 0) = false) →
      (∀ k, pj ≤ k → k ≤ pr - 1 → lt (t.getD k 0) vp = false) →
      (pl < u ∧ u ≤ pr - 1) ∧
      (∀ k, pl ≤ k → k < u → lt vp (t1.getD k 0) = false) ∧
      (∀ k, u ≤ k → k ≤ pr - 1 → lt (t1.getD k 0) vp = false) ∧
      (∀ k, k < pl ∨ pr - 2 < k → t1.getD k 0 = t.getD k 0) ∧
      (∀ k, pl ≤ k → k ≤ pr → ∃ k2, pl ≤ k2 ∧ k2 ≤ pr ∧
        t1.getD k 0 = t.getD k2 0) ∧
      t1.length = t.length := by
  intro fuel
  induction fuel with
  | zero => intro t pi pj t1 u _ _ h2 _ _ h5 _ _; omega
  | succ fuel ih =>
    intro t pi pj t1 u heq hpl hij hjr hrt hfuel hZL hZR
    simp only [partLoop] at heq
    have hU := scanUp_spec lt t vp t.length pi pj hij (by omega)
      (hZR pj (Nat.le_refl pj) hjr)
    have hD := scanDown_spec lt t vp t.length pj pi hij (by omega)
      (hZL pi hpl (Nat.le_refl pi))
    by_cases hge : scanUp lt t vp pi t.length ≥ scanDown lt t vp pj t.length
    · rw [if_pos hge] at heq
      obtain ⟨ht1, hu⟩ := Prod.mk.injEq .. ▸ heq
      subst ht1
      subst hu
      refine ⟨⟨by omega, by omega⟩, ?_, ?_, fun k _ => rfl,
        fun k hk1 hk2 => ⟨k, hk1, hk2, rfl⟩, rfl⟩
      · intro k hk1 hk2
        rcases Nat.lt_or_ge pi k with h | h
        · exact ha _ _ (hU.2.2.2 k h hk2)
        · exact hZL k hk1 h
      · intro k hk1 hk2
        rcases Nat.eq_or_lt_of_le hk1 with h | h
        · rw [← h]
          exact hU.2.2.1
        · rcases Nat.lt_or_ge k pj with h' | h'
          · exact ha _ _ (hD.2.2.2 k (by omega) h')
          · exact hZR k h' hk2
    · rw [if_neg hge] at heq
      have hud : scanUp lt t vp pi t.length < scanDown lt t vp pj t.length := by
        omega
      set ui := scanUp lt t vp pi t.length with hui
      set dj := scanDown lt t vp pj t.length with hdj
      have huilt : ui < t.length := by omega
      have hdjlt : dj < t.length := by omega
      have hswf : (lswap t ui dj).getD ui 0 = t.getD dj 0 :=
        lswap_getD_fst t ui dj huilt (by omega)
      have hsws : (lswap t ui dj).getD dj 0 = t.getD ui 0 :=
        lswap_getD_snd t ui dj hdjlt
      have hswo : ∀ k, k ≠ ui → k ≠ dj → (lswap t ui dj).getD k 0 = t.getD k 0 :=
        fun k h1 h2 => lswap_getD_other t ui dj k h1 h2
      have hrec := ih (lswap t ui dj) ui dj t1 u heq (by omega) hud (by omega)
        (by rw [lswap_length]; exact hrt) (by omega) ?_ ?_
      · refine ⟨hrec.1, hrec.2.1, hrec.2.2.1, ?_, ?_, ?_⟩
        · intro k hk
          rw [hrec.2.2.2.1 k hk, hswo k (by omega) (by omega)]
        · intro k hk1 hk2
          obtain ⟨k2, hk21, hk22, hk2e⟩ := hrec.2.2.2.2.1 k hk1 hk2
          by_cases he1 : k2 = ui
          · exact ⟨dj, by omega, by omega, by rw [hk2e, he1, hswf]⟩
          · by_cases he2 : k2 = dj
            · exact ⟨ui, by omega, by omega, by rw [hk2e, he2, hsws]⟩
            · exact ⟨k2, hk21, hk22, by rw [hk2e, hswo k2 he1 he2]⟩
        · rw [hrec.2.2.2.2.2, lswap_length]
      · intro k hk1 hk2
        rcases Nat.eq_or_lt_of_le hk2 with h | h
        · rw [h, hswf]
          exact hD.2.2.1
        · rw [hswo k (by omega) (by omega)]
          rcases Nat.lt_or_ge pi k with h' | h'
          · exact ha _ _ (hU.2.2.2 k h' h)
          · exact hZL k hk1 h'
      · intro k hk1 hk2
        rcases Nat.eq_or_lt_of_le hk1 with h | h
        · rw [← h, hsws]
          exact hU.2.2.1
        · rw [hswo k (by omega) (by omega)]
          rcases Nat.lt_or_ge k pj with h' | h'
          · exact ha _ _ (hD.2.2.2 k h h')
          · exact hZR k h' hk2

/-- The median-of-3 preamble of one partition: after its three conditional
swaps the key at `pl` is not above the pivot slot `pm` and the key at `pm`
is not above `pr`; only the three probed positions change, and the segment
keeps its values. -/
theorem med3_spec (lt : Nat → Nat → Bool)
    (ha : ∀ a b, lt a b = true → lt b a = false)
    (hm : ∀ a b c, lt a b = true → lt c b = false → lt a c = true)
    (t t1 t2 t3 : List Nat) (pl pm pr : Nat)
    (hlm : pl < pm) (hmr : pm < pr) (hprt : pr < t.length)
    (e1 : t1 = if lt (t.getD pm 0) (t.getD pl 0) then lswap t pm pl else t)
    (e2 : t2 = if lt (t1.getD pr 0) (t1.getD pm 0) then lswap t1 pr pm else t1)
    (e3 : t3 = if lt (t2.getD pm 0) (t2.getD pl 0) then lswap t2 pm pl else t2) :
    lt (t3.getD pm 0) (t3.getD pl 0) = false ∧
    lt (t3.getD pr 0) (t3.getD pm 0) = false ∧
    t3.length = t.length ∧
    (∀ k, k ≠ pl → k ≠ pm → k ≠ pr → t3.getD k 0 = t.getD k 0) ∧
    (∀ k, pl ≤ k → k ≤ pr → ∃ k2, pl ≤ k2 ∧ k2 ≤ pr ∧
      t3.getD k 0 = t.getD k2 0) := by
  have step1 : lt (t1.getD pm 0) (t1.getD pl 0) = false ∧ t1.length = t.length ∧
      (∀ k, k ≠ pl → k ≠ pm → t1.getD k 0 = t.getD k 0) ∧
      (∀ k, pl ≤ k → k ≤ pr → ∃ k2, pl ≤ k2 ∧ k2 ≤ pr ∧
        t1.getD k 0 = t.getD k2 0) := by
    by_cases c1 : lt (t.getD pm 0) (t.getD pl 0) = true
    · rw [e1, if_pos c1]
      refine ⟨?_, lswap_length t pm pl, ?_, ?_⟩
      · rw [lswap_getD_fst t pm pl (by omega) (by omega),
          lswap_getD_snd t pm pl (by omega)]
        exact ha _ _ c1
      · exact fun k h1 h2 => lswap_getD_other t pm pl k h2 h1
      · intro k hk1 hk2
        by_cases hkm : k = pm
        · exact ⟨pl, Nat.le_refl pl, by omega,
            by rw [hkm, lswap_getD_fst t pm pl (by omega) (by omega)]⟩
        · by_cases hkl : k = pl
          · exact ⟨pm, by omega, by omega,
              by rw [hkl, lswap_getD_snd t pm pl (by omega)]⟩
          · exact ⟨k, hk1, hk2, by rw [lswap_getD_other t pm pl k hkm hkl]⟩
    · rw [e1, if_neg c1]
      exact ⟨Bool.not_eq_true _ ▸ c1, rfl, fun k _ _ => rfl,
        fun k hk1 hk2 => ⟨k, hk1, hk2, rfl⟩⟩
  have hprt1 : pr < t1.length := by rw [step1.2.1]; exact hprt
  have step2 : lt (t2.getD pr 0) (t2.getD pm 0) = false ∧
      lt (t2.getD pr 0) (t2.getD pl 0) = false ∧ t2.length = t1.length ∧
      (∀ k, k ≠ pm → k ≠ pr → t2.getD k 0 = t1.getD k 0) ∧
      (∀ k, pl ≤ k → k ≤ pr → ∃ k2, pl ≤ k2 ∧ k2 ≤ pr ∧
        t2.getD k 0 = t1.getD k2 0) := by
    by_cases c2 : lt (t1.getD pr 0) (t1.getD pm 0) = true
    · rw [e2, if_pos c2]
      refine ⟨?_, ?_, lswap_length t1 pr pm, ?_, ?_⟩
      · rw [lswap_getD_fst t1 pr pm (by omega) (by omega),
          lswap_getD_snd t1 pr pm (by omega)]
        exact ha _ _ c2
      · rw [lswap_getD_fst t1 pr pm (by omega) (by omega),
          lswap_getD_other t1 pr pm pl (by omega) (by omega)]
        exact step1.1
      · exact fun k h1 h2 => lswap_getD_other t1 pr pm k h2 h1
      · intro k hk1 hk2
        by_cases hkr : k = pr
        · exact ⟨pm, by omega, by omega,
            by rw [hkr, lswap_getD_fst t1 pr pm (by omega) (by omega)]⟩
        · by_cases hkm : k = pm
          · exact ⟨pr, by omega, Nat.le_refl pr,
              by rw [hkm, lswap_getD_snd t1 pr pm (by omega)]⟩
          · exact ⟨k, hk1, hk2, by rw [lswap_getD_other t1 pr pm k hkr hkm]⟩
    · rw [e2, if_neg c2]
      refine ⟨Bool.not_eq_true _ ▸ c2, ?_, rfl, fun k _ _ => rfl,
        fun k hk1 hk2 => ⟨k, hk1, hk2, rfl⟩⟩
      exact blt_negtrans lt hm _ _ _ (Bool.not_eq_true _ ▸ c2) step1.1
  have step3 : lt (t3.getD pm 0) (t3.getD pl 0) = false ∧
      lt (t3.getD pr 0) (t3.getD pm 0) = false ∧ t3.length = t2.length ∧
      (∀ k, k ≠ pl → k ≠ pm → t3.getD k 0 = t2.getD k 0) ∧
      (∀ k, pl ≤ k → k ≤ pr → ∃ k2, pl ≤ k2 ∧ k2 ≤ pr ∧
        t3.getD k 0 = t2.getD k2 0) := by
    have hprt2 : pr < t2.length := by rw [step2.2.2.1]; exact hprt1
    by_cases c3 : lt (t2.getD pm 0) (t2.getD pl 0) = true
    · rw [e3, if_pos c3]
      refine ⟨?_, ?_, lswap_length t2 pm pl, ?_, ?_⟩
      · rw [lswap_getD_fst t2 pm pl (by omega) (by omega),
          lswap_getD_snd t2 pm pl (by omega)]
        exact ha _ _ c3
      · rw [lswap_getD_fst t2 pm pl (by omega) (by omega),
          lswap_getD_other t2 pm pl pr (by omega) (by omega)]
        exact step2.2.1
      · exact fun k h1 h2 => lswap_getD_other t2 pm pl k h2 h1
      · intro k hk1 hk2
        by_cases hkm : k = pm
        · exact ⟨pl, Nat.le_refl pl, by omega,
            by rw [hkm, lswap_getD_fst t2 pm pl (by omega) (by omega)]⟩
        · by_cases hkl : k = pl
          · exact ⟨pm, by omega, by omega,
              by rw [hkl, lswap_getD_snd t2 pm pl (by omega)]⟩
          · exact ⟨k, hk1, hk2, by rw [lswap_getD_other t2 pm pl k hkm hkl]⟩
    · rw [e3, if_neg c3]
      exact ⟨Bool.not_eq_true _ ▸ c3, step2.1, rfl, fun k _ _ => rfl,
        fun k hk1 hk2 => ⟨k, hk1, hk2, rfl⟩⟩
  refine ⟨step3.1, step3.2.1, by rw [step3.2.2.1, step2.2.2.1, step1.2.1], ?_, ?_⟩
  · intro k h1 h2 h3
    rw [step3.2.2.2.1 k h1 h2, step2.2.2.2.1 k h2 h3, step1.2.2.1 k h1 h2]
  · intro k hk1 hk2
    obtain ⟨k2, h21, h22, he2⟩ := step3.2.2.2.2 k hk1 hk2
    obtain ⟨k3, h31, h32, he3⟩ := step2.2.2.2.2 k2 h21 h22
    obtain ⟨k4, h41, h42, he4⟩ := step1.2.2.2 k3 h31 h32
    exact ⟨k4, h41, h42, by rw [he2, he3, he4]⟩

/-- One quicksort partition on a large segment: the returned crossing
index lies strictly inside the segment, some pivot key separates the two
sides (everything up to the crossing is not above it, everything from the
crossing on is not below it), positions outside the segment are untouched,
and the segment keeps its values. -/
theorem partitionStep_spec (lt : Nat → Nat → Bool)
    (ha : ∀ a b, lt a b = true → lt b a = false)
    (hm : ∀ a b c, lt a b = true → lt c b = false → lt a c = true)
    (t : List Nat) (pl pr : Nat) (tr : List Nat) (u : Nat)
    (heq : partitionStep lt t pl pr = (tr, u))
    (hprt : pr < t.length) (h15 : 15 < pr - pl) :
    (pl < u ∧ u ≤ pr - 1) ∧
    (∃ vp, (∀ k, pl ≤ k → k ≤ u → lt vp (tr.getD k 0) = false) ∧
           (∀ k, u ≤ k → k ≤ pr → lt (tr.getD k 0) vp = false)) ∧
    (∀ k, k < pl ∨ pr < k → tr.getD k 0 = t.getD k 0) ∧
    (∀ k, pl ≤ k → k ≤ pr → ∃ k2, pl ≤ k2 ∧ k2 ≤ pr ∧
      tr.getD k 0 = t.getD k2 0) ∧
    tr.length = t.length := by
  simp only [partitionStep] at heq
  set pm := pl + (pr - pl) / 2 with hpm
  have hlm : pl < pm := by omega
  have hmr1 : pm < pr - 1 := by omega
  have hmr : pm < pr := by omega
  set t1 := if lt (t.getD pm 0) (t.getD pl 0) then lswap t pm pl else t with e1
  set t2 := if lt (t1.getD pr 0) (t1.getD pm 0) then lswap t1 pr pm else t1 with e2
  set t3 := if lt (t2.getD pm 0) (t2.getD pl 0) then lswap t2 pm pl else t2 with e3
  have hmed := med3_spec lt ha hm t t1 t2 t3 pl pm pr hlm hmr hprt e1 e2 e3
  have h3len : t3.length = t.length := hmed.2.2.1
  set vp := t3.getD pm 0 with hvp
  set t4 := lswap t3 pm (pr - 1) with e4
  have h4len : t4.length = t.length := by rw [e4, lswap_length, h3len]
  have h4pl : t4.getD pl 0 = t3.getD pl 0 := by
    rw [e4, lswap_getD_other t3 pm (pr - 1) pl (by omega) (by omega)]
  have h4piv : t4.getD (pr - 1) 0 = vp := by
    rw [e4, lswap_getD_snd t3 pm (pr - 1) (by omega)]
  have h4pr : t4.getD pr 0 = t3.getD pr 0 := by
    rw [e4, lswap_getD_other t3 pm (pr - 1) pr (by omega) (by omega)]
  have h4VS : ∀ k, pl ≤ k → k ≤ pr → ∃ k2, pl ≤ k2 ∧ k2 ≤ pr ∧
      t4.getD k 0 = t3.getD k2 0 := by
    intro k hk1 hk2
    by_cases hkm : k = pm
    · exact ⟨pr - 1, by omega, by omega,
        by rw [hkm, e4, lswap_getD_fst t3 pm (pr - 1) (by omega) (by omega)]⟩
    · by_cases hkp : k = pr - 1
      · exact ⟨pm, by omega, by omega,
          by rw [hkp, e4, lswap_getD_snd t3 pm (pr - 1) (by omega)]⟩
      · exact ⟨k, hk1, hk2,
          by rw [e4, lswap_getD_other t3 pm (pr - 1) k hkm hkp]⟩
  set r := partLoop lt vp t4 pl (pr - 1) t4.length with hr
  have hru : partLoop lt vp t4 pl (pr - 1) t4.length = (r.1, r.2) := by
    rw [← hr]
  have hP := partLoop_spec lt ha vp pl pr t4.length t4 pl (pr - 1) r.1 r.2 hru
    (Nat.le_refl pl) (by omega) (Nat.le_refl (pr - 1)) (by omega) (by omega)
    ?_ ?_
  · obtain ⟨htr, hu⟩ := Prod.mk.injEq .. ▸ heq
    subst htr
    subst hu
    have hrlen : r.1.length = t.length := by rw [hP.2.2.2.2.2, h4len]
    have hub1 : pl < r.2 := hP.1.1
    have hub2 : r.2 ≤ pr - 1 := hP.1.2
    have hpivval : r.1.getD (pr - 1) 0 = vp := by
      rw [hP.2.2.2.1 (pr - 1) (Or.inr (by omega)), h4piv]
    have htr_u : (lswap r.1 r.2 (pr - 1)).getD r.2 0 = r.1.getD (pr - 1) 0 := by
      by_cases hue : r.2 = pr - 1
      · rw [hue, lswap_self r.1 (pr - 1) (by omega)]
      · rw [lswap_getD_fst r.1 r.2 (pr - 1) (by omega) hue]
    have htr_piv : (lswap r.1 r.2 (pr - 1)).getD (pr - 1) 0 = r.1.getD r.2 0 := by
      by_cases hue : r.2 = pr - 1
      · rw [hue, lswap_self r.1 (pr - 1) (by omega)]
      · rw [lswap_getD_snd r.1 r.2 (pr - 1) (by omega)]
    have htr_o : ∀ k, k ≠ r.2 → k ≠ pr - 1 →
        (lswap r.1 r.2 (pr - 1)).getD k 0 = r.1.getD k 0 := by
      intro k h1 h2
      rw [lswap_getD_other r.1 r.2 (pr - 1) k h1 h2]
    refine ⟨⟨hub1, hub2⟩, ⟨vp, ?_, ?_⟩, ?_, ?_, ?_⟩
    · intro k hk1 hk2
      rcases Nat.eq_or_lt_of_le hk2 with h | h
      · rw [h, htr_u, hpivval]
        exact blt_irrefl lt ha vp
      · rw [htr_o k (by omega) (by omega)]
        exact hP.2.1 k hk1 h
    · intro k hk1 hk2
      rcases Nat.eq_or_lt_of_le hk1 with h | h
      · rw [← h, htr_u, hpivval]
        exact blt_irrefl lt ha vp
      · by_cases hkp : k = pr - 1
        · rw [hkp, htr_piv]
          exact hP.2.2.1 r.2 (Nat.le_refl r.2) hub2
        · by_cases hkr : k = pr
          · rw [hkr, htr_o pr (by omega) (by omega),
              hP.2.2.2.1 pr (Or.inr (by omega)), h4pr]
            exact hmed.2.1
          · rw [htr_o k (by omega) (by omega)]
            exact hP.2.2.1 k (by omega) (by omega)
    · intro k hk
      rw [htr_o k (by omega) (by omega), hP.2.2.2.1 k (by omega),
        e4, lswap_getD_other t3 pm (pr - 1) k (by omega) (by omega),
        hmed.2.2.2.1 k (by omega) (by omega) (by omega)]
    · intro k hk1 hk2
      have hstep : ∃ j, pl ≤ j ∧ j ≤ pr ∧
          (lswap r.1 r.2 (pr - 1)).getD k 0 = r.1.getD j 0 := by
        by_cases hku : k = r.2
        · exact ⟨pr - 1, by omega, by omega, by rw [hku, htr_u]⟩
        · by_cases hkp : k = pr - 1
          · exact ⟨r.2, by omega, by omega, by rw [hkp, htr_piv]⟩
          · exact ⟨k, hk1, hk2, htr_o k hku hkp⟩
      obtain ⟨j, hj1, hj2, hje⟩ := hstep
      obtain ⟨j2, hj21, hj22, hje2⟩ := hP.2.2.2.2.1 j hj1 hj2
      obtain ⟨j3, hj31, hj32, hje3⟩ := h4VS j2 hj21 hj22
      obtain ⟨j4, hj41, hj42, hje4⟩ := hmed.2.2.2.2 j3 hj31 hj32
      exact ⟨j4, hj41, hj42, by rw [hje, hje2, hje3, hje4]⟩
    · rw [lswap_length, hrlen]
  · intro k hk1 hk2
    have hkl : k = pl := by omega
    rw [hkl, h4pl]
    exact hmed.1
  · intro k hk1 hk2
    have hkp : k = pr - 1 := by omega
    rw [hkp, h4piv]
    exact blt_irrefl lt ha vp

/-- The sift-down loop only copies existing in-range values around: no new
value enters the segment. -/
theorem siftDown_mem (lt : Nat → Nat → Bool) (tmp n : Nat) :
    ∀ fuel seg i j, n ≤ seg.length → 1 ≤ j →
      ∀ v ∈ (siftDown lt tmp n seg i j fuel).1, v ∈ seg
  | 0, seg, i, j => fun _ _ v hv => hv
  | fuel + 1, seg, i, j => by
    intro hn hj1 v hv
    simp only [siftDown] at hv
    by_cases hjn : j ≤ n
    · rw [if_pos hjn] at hv
      by_cases hsw : (decide (j < n) && lt (seg.getD (j - 1) 0) (seg.getD j 0))
          = true
      · rw [if_pos hsw] at hv
        have hjlt : j < n := of_decide_eq_true (Bool.and_eq_true .. ▸ hsw).1
        by_cases hgo : lt tmp (seg.getD (j + 1 - 1) 0) = true
        · rw [if_pos hgo] at hv
          have hv2 := siftDown_mem lt tmp n fuel _ (j + 1) (2 * (j + 1))
            (by rw [List.length_set]; exact hn) (by omega) v hv
          rcases List.mem_or_eq_of_mem_set hv2 with h | h
          · exact h
          · rw [h]
            exact getD_mem seg (j + 1 - 1) (by omega)
        · rw [if_neg hgo] at hv
          exact hv
      · rw [if_neg hsw] at hv
        by_cases hgo : lt tmp (seg.getD (j - 1) 0) = true
        · rw [if_pos hgo] at hv
          have hv2 := siftDown_mem lt tmp n fuel _ j (2 * j)
            (by rw [List.length_set]; exact hn) (by omega) v hv
          rcases List.mem_or_eq_of_mem_set hv2 with h | h
          · exact h
          · rw [h]
            exact getD_mem seg (j - 1) (by omega)
        · rw [if_neg hgo] at hv
          exact hv
    · rw [if_neg hjn] at hv
      exact hv

/-- Full specification of the sift-down loop entered at hole `i` with
child pointer `2 * i`: the final hole lies on the descent path (`i` itself
or at depth at least one, within the heap); positions before `i`, after
`n`, or strictly between `i` and `2 * i` are untouched; the heap region
keeps its values; after the caller writes `tmp` into the final hole, the
entry hole holds `tmp` or a promoted child key above `tmp`, and every heap
edge with parent at or below the path root is restored. -/
theorem siftDown_spec (lt : Nat → Nat → Bool)
    (ha : ∀ a b, lt a b = true → lt b a = false)
    (hm : ∀ a b c, lt a b = true → lt c b = false → lt a c = true)
    (tmp n : Nat) :
    ∀ fuel seg i sg f, siftDown lt tmp n seg i (2 * i) fuel = (sg, f) →
      1 ≤ i → i ≤ n → n ≤ seg.length → n < 2 ^ fuel * (2 * i) →
      (∀ j2, 2 ≤ j2 → j2 ≤ n → i < j2 / 2 → heapEdge lt seg j2) →
      (i ≤ f ∧ f ≤ n ∧ (f = i ∨ 2 * i ≤ f)) ∧
      (∀ k, 1 ≤ k → (k < i ∨ n < k ∨ (i < k ∧ k < 2 * i)) →
        aGet sg k = aGet seg k) ∧
      (∀ k, 1 ≤ k → k ≤ n → ∃ k2, 1 ≤ k2 ∧ k2 ≤ n ∧
        aGet sg k = aGet seg k2) ∧
      (aGet (sg.set (f - 1) tmp) i = tmp ∨
        ∃ jc, jc / 2 = i ∧ 2 ≤ jc ∧ jc ≤ n ∧
          aGet (sg.set (f - 1) tmp) i = aGet seg jc ∧
          lt tmp (aGet seg jc) = true) ∧
      (∀ j2, 2 ≤ j2 → j2 ≤ n → i ≤ j2 / 2 →
        heapEdge lt (sg.set (f - 1) tmp) j2) := by
  intro fuel
  induction fuel with
  | zero =>
    intro seg i sg f heq h1i hin hn hfuel hedge
    simp only [siftDown] at heq
    cases heq
    refine ⟨⟨Nat.le_refl i, hin, Or.inl rfl⟩, fun k _ _ => rfl,
      fun k hk1 hk2 => ⟨k, hk1, hk2, rfl⟩, Or.inl ?_, ?_⟩
    · show (seg.set (i - 1) tmp).getD (i - 1) 0 = tmp
      exact getD_set_eq seg (i - 1) tmp (by omega)
    · intro j2 h2 hj2n hij2
      simp only [pow_zero, one_mul] at hfuel
      exact absurd hij2 (by omega)
  | succ fuel ih =>
    intro seg i sg f heq h1i hin hn hfuel hedge
    simp only [siftDown] at heq
    by_cases hjn : 2 * i ≤ n
    · rw [if_pos hjn] at heq
      have key : ∀ j', j' = 2 * i ∨ j' = 2 * i + 1 → j' ≤ n →
          (∀ s2, s2 / 2 = i → 2 ≤ s2 → s2 ≤ n → s2 ≠ j' →
            lt (seg.getD (j' - 1) 0) (seg.getD (s2 - 1) 0) = false) →
          (if lt tmp (seg.getD (j' - 1) 0) = true then
              siftDown lt tmp n (seg.set (i - 1) (seg.getD (j' - 1) 0)) j'
                (2 * j') fuel
            else (seg, i)) = (sg, f) →
          (i ≤ f ∧ f ≤ n ∧ (f = i ∨ 2 * i ≤ f)) ∧
          (∀ k, 1 ≤ k → (k < i ∨ n < k ∨ (i < k ∧ k < 2 * i)) →
            aGet sg k = aGet seg k) ∧
          (∀ k, 1 ≤ k → k ≤ n → ∃ k2, 1 ≤ k2 ∧ k2 ≤ n ∧
            aGet sg k = aGet seg k2) ∧
          (aGet (sg.set (f - 1) tmp) i = tmp ∨
            ∃ jc, jc / 2 = i ∧ 2 ≤ jc ∧ jc ≤ n ∧
              aGet (sg.set (f - 1) tmp) i = aGet seg jc ∧
              lt tmp (aGet seg jc) = true) ∧
          (∀ j2, 2 ≤ j2 → j2 ≤ n → i ≤ j2 / 2 →
            heapEdge lt (sg.set (f - 1) tmp) j2) := by
        intro j' hj'or hj'n hsib heq
        have hj'ge : 2 * i ≤ j' := by omega
        have hj'le : j' ≤ 2 * i + 1 := by omega
        have hj'half : j' / 2 = i := by omega
        have hij' : i < j' := by omega
        by_cases hgo : lt tmp (seg.getD (j' - 1) 0) = true
        · rw [if_pos hgo] at heq
          have hrec := ih (seg.set (i - 1) (seg.getD (j' - 1) 0)) j' sg f heq
            (by omega) hj'n (by rw [List.length_set]; exact hn) ?_ ?_
          · obtain ⟨⟨hf1, hf2, hfpath⟩, hB3, hB4, hB5, hB6⟩ := hrec
            have hs1i : (seg.set (i - 1) (seg.getD (j' - 1) 0)).getD (i - 1) 0
                = seg.getD (j' - 1) 0 := getD_set_eq _ _ _ (by omega)
            have hs1o : ∀ k, 1 ≤ k → k ≠ i →
                (seg.set (i - 1) (seg.getD (j' - 1) 0)).getD (k - 1) 0
                  = seg.getD (k - 1) 0 :=
              fun k hk hki => getD_set_ne _ _ _ _ (by omega)
            have hA3 : ∀ k, 1 ≤ k → (k < i ∨ n < k ∨ (i < k ∧ k < 2 * i)) →
                aGet sg k = aGet seg k := by
              intro k hk1 hz
              have hzj' : k < j' ∨ n < k ∨ (j' < k ∧ k < 2 * j') := by omega
              have hstep := hB3 k hk1 hzj'
              simp only [aGet] at hstep ⊢
              rw [hstep]
              exact hs1o k hk1 (by omega)
            have hA4 : ∀ k, 1 ≤ k → k ≤ n → ∃ k2, 1 ≤ k2 ∧ k2 ≤ n ∧
                aGet sg k = aGet seg k2 := by
              intro k hk1 hk2
              obtain ⟨k2, hk21, hk22, he⟩ := hB4 k hk1 hk2
              by_cases hk2i : k2 = i
              · refine ⟨j', by omega, hj'n, ?_⟩
                simp only [aGet] at he ⊢
                rw [he, hk2i]
                exact hs1i
              · refine ⟨k2, hk21, hk22, ?_⟩
                simp only [aGet] at he ⊢
                rw [he]
                exact hs1o k2 hk21 hk2i
            have hparval : (sg.set (f - 1) tmp).getD (i - 1) 0
                = seg.getD (j' - 1) 0 := by
              rw [getD_set_ne sg (f - 1) (i - 1) tmp (by omega)]
              have hstep := hB3 i h1i (Or.inl hij')
              simp only [aGet] at hstep
              rw [hstep, hs1i]
            have hA5 : aGet (sg.set (f - 1) tmp) i = tmp ∨
                ∃ jc, jc / 2 = i ∧ 2 ≤ jc ∧ jc ≤ n ∧
                  aGet (sg.set (f - 1) tmp) i = aGet seg jc ∧
                  lt tmp (aGet seg jc) = true :=
              Or.inr ⟨j', hj'half, by omega, hj'n, hparval, hgo⟩
            have hA6 : ∀ j2, 2 ≤ j2 → j2 ≤ n → i ≤ j2 / 2 →
                heapEdge lt (sg.set (f - 1) tmp) j2 := by
              intro j2 h2j2 hj2n hij2
              by_cases hcase : j' ≤ j2 / 2
              · exact hB6 j2 h2j2 hj2n hcase
              · by_cases hpar : j2 / 2 = i
                · have hj2c : j2 = 2 * i ∨ j2 = 2 * i + 1 := by omega
                  by_cases hj2j' : j2 = j'
                  · rcases hB5 with h5 | ⟨jc, hjc1, hjc2, hjc3, hjc4, hjc5⟩
                    · simp only [heapEdge, aGet]
                      rw [hpar, hparval, hj2j']
                      simp only [aGet] at h5
                      rw [h5]
                      exact ha _ _ hgo
                    · simp only [heapEdge, aGet]
                      rw [hpar, hparval, hj2j']
                      simp only [aGet] at hjc4
                      rw [hjc4, hs1o jc (by omega) (by omega)]
                      have hstep := hedge jc (by omega) hjc3 (by omega)
                      simp only [heapEdge, aGet] at hstep
                      rw [hjc1] at hstep
                      exact hstep
                  · have hfne : f ≠ j2 := by
                      rcases hfpath with hf | hf <;> omega
                    have hchild : (sg.set (f - 1) tmp).getD (j2 - 1) 0
                        = seg.getD (j2 - 1) 0 := by
                      rw [getD_set_ne sg (f - 1) (j2 - 1) tmp (by omega)]
                      have hstep := hB3 j2 (by omega)
                        (by omega : j2 < j' ∨ n < j2 ∨ (j' < j2 ∧ j2 < 2 * j'))
                      simp only [aGet] at hstep
                      rw [hstep]
                      exact hs1o j2 (by omega) (by omega)
                    simp only [heapEdge, aGet]
                    rw [hpar, hparval, hchild]
                    exact hsib j2 hpar h2j2 hj2n hj2j'
                · have hp1 : i < j2 / 2 := by omega
                  have hp2 : j2 / 2 < j' := by omega
                  have hc1 : j2 < 2 * j' := by omega
                  have hc2 : j' < j2 := by omega
                  have hfne2 : f ≠ j2 := by
                    rcases hfpath with hf | hf <;> omega
                  have hq1 : (sg.set (f - 1) tmp).getD (j2 / 2 - 1) 0
                      = seg.getD (j2 / 2 - 1) 0 := by
                    rw [getD_set_ne sg (f - 1) (j2 / 2 - 1) tmp (by omega)]
                    have hstep := hB3 (j2 / 2) (by omega) (Or.inl hp2)
                    simp only [aGet] at hstep
                    rw [hstep]
                    exact hs1o (j2 / 2) (by omega) (by omega)
                  have hq2 : (sg.set (f - 1) tmp).getD (j2 - 1) 0
                      = seg.getD (j2 - 1) 0 := by
                    rw [getD_set_ne sg (f - 1) (j2 - 1) tmp (by omega)]
                    have hstep := hB3 j2 (by omega) (Or.inr (Or.inr ⟨hc2, hc1⟩))
                    simp only [aGet] at hstep
                    rw [hstep]
                    exact hs1o j2 (by omega) (by omega)
                  have hstep := hedge j2 h2j2 hj2n hp1
                  simp only [heapEdge, aGet] at hstep ⊢
                  rw [hq1, hq2]
                  exact hstep
            exact ⟨⟨by omega, hf2, Or.inr (by omega)⟩, hA3, hA4, hA5, hA6⟩
          · have hp : 2 ^ (fuel + 1) * (2 * i) ≤ 2 ^ fuel * (2 * j') := by
              rw [pow_succ]
              calc 2 ^ fuel * 2 * (2 * i) = 2 ^ fuel * (2 * (2 * i)) := by ring
              _ ≤ 2 ^ fuel * (2 * j') := Nat.mul_le_mul_left _ (by omega)
            exact Nat.lt_of_lt_of_le hfuel hp
          · intro j2 h2 hjn2 hgt
            have hp1 : i < j2 / 2 := by omega
            have hstep := hedge j2 h2 hjn2 hp1
            simp only [heapEdge, aGet] at hstep ⊢
            rw [getD_set_ne seg (i - 1) (j2 / 2 - 1) _ (by omega),
              getD_set_ne seg (i - 1) (j2 - 1) _ (by omega)]
            exact hstep
        · rw [if_neg hgo] at heq
          cases heq
          refine ⟨⟨Nat.le_refl i, hin, Or.inl rfl⟩, fun k _ _ => rfl,
            fun k hk1 hk2 => ⟨k, hk1, hk2, rfl⟩,
            Or.inl (getD_set_eq seg (i - 1) tmp (by omega)), ?_⟩
          intro j2 h2j2 hj2n hij2
          simp only [heapEdge, aGet]
          by_cases hpar : j2 / 2 = i
          · rw [hpar, getD_set_eq seg (i - 1) tmp (by omega),
              getD_set_ne seg (i - 1) (j2 - 1) tmp (by omega)]
            by_cases hj2j' : j2 = j'
            · rw [hj2j']
              exact Bool.not_eq_true _ ▸ hgo
            · exact blt_negtrans lt hm _ _ _ (Bool.not_eq_true _ ▸ hgo)
                (hsib j2 hpar h2j2 hj2n hj2j')
          · have hpargt : i < j2 / 2 := by omega
            rw [getD_set_ne seg (i - 1) (j2 / 2 - 1) tmp (by omega),
              getD_set_ne seg (i - 1) (j2 - 1) tmp (by omega)]
            have hstep := hedge j2 h2j2 hj2n hpargt
            simpa [heapEdge, aGet] using hstep
      by_cases hsw : (decide (2 * i < n)
          && lt (seg.getD (2 * i - 1) 0) (seg.getD (2 * i) 0)) = true
      · rw [if_pos hsw] at heq
        have h2in : 2 * i < n := of_decide_eq_true (Bool.and_eq_true .. ▸ hsw).1
        have hswlt : lt (seg.getD (2 * i - 1) 0) (seg.getD (2 * i) 0) = true :=
          (Bool.and_eq_true .. ▸ hsw).2
        refine key (2 * i + 1) (Or.inr rfl) (by omega) ?_ heq
        intro s2 hs2 h2s2 hs2n hne
        have hs2eq : s2 = 2 * i := by omega
        rw [hs2eq]
        exact ha _ _ hswlt
      · rw [if_neg hsw] at heq
        refine key (2 * i) (Or.inl rfl) hjn ?_ heq
        intro s2 hs2 h2s2 hs2n hne
        have hs2eq : s2 = 2 * i + 1 := by omega
        have h2in : 2 * i < n := by omega
        have hdec : decide (2 * i < n) = true := decide_eq_true h2in
        have hltf : lt (seg.getD (2 * i - 1) 0) (seg.getD (2 * i) 0) = false := by
          cases hb : lt (seg.getD (2 * i - 1) 0) (seg.getD (2 * i) 0)
          · rfl
          · exact absurd (by rw [hdec, hb]; rfl :
              (decide (2 * i < n)
                && lt (seg.getD (2 * i - 1) 0) (seg.getD (2 * i) 0)) = true) hsw
        rw [hs2eq]
        exact hltf
    · rw [if_neg hjn] at heq
      cases heq
      refine ⟨⟨Nat.le_refl i, hin, Or.inl rfl⟩, fun k _ _ => rfl,
        fun k hk1 hk2 => ⟨k, hk1, hk2, rfl⟩, Or.inl ?_, ?_⟩
      · show (seg.set (i - 1) tmp).getD (i - 1) 0 = tmp
        exact getD_set_eq seg (i - 1) tmp (by omega)
      · intro j2 h2 hj2n hij2
        exact absurd hij2 (by omega)

/-- After the construction phase of `npy_aheapsort`, every heap edge
holds: the segment is a max-heap. -/
theorem heapBuild_spec (lt : Nat → Nat → Bool)
    (ha : ∀ a b, lt a b = true → lt b a = false)
    (hm : ∀ a b c, lt a b = true → lt c b = false → lt a c = true)
    (n : Nat) :
    ∀ l seg, n ≤ seg.length → l ≤ n / 2 →
      (∀ j2, 2 ≤ j2 → j2 ≤ n → l < j2 / 2 → heapEdge lt seg j2) →
      ∀ j2, 2 ≤ j2 → j2 ≤ n → heapEdge lt (heapBuild lt n seg l) j2
  | 0, seg => by
    intro hn _ hedge j2 h2 hn2
    simp only [heapBuild]
    exact hedge j2 h2 hn2 (by omega)
  | l + 1, seg => by
    intro hn hl hedge
    simp only [heapBuild]
    rcases hsd : siftDown lt (seg.getD (l + 1 - 1) 0) n seg (l + 1)
      (2 * (l + 1)) (n + 2) with ⟨sg, f⟩
    have hspec := siftDown_spec lt ha hm (seg.getD (l + 1 - 1) 0) n (n + 2) seg
      (l + 1) sg f hsd (by omega) (by omega) hn ?_
      (fun j2 a b c => hedge j2 a b (by omega))
    · have hlen : sg.length = seg.length := by
        have hL := siftDown_length lt (seg.getD (l + 1 - 1) 0) n (n + 2) seg
          (l + 1) (2 * (l + 1))
        rw [hsd] at hL
        exact hL
      exact heapBuild_spec lt ha hm n l (sg.set (f - 1) (seg.getD (l + 1 - 1) 0))
        (by rw [List.length_set, hlen]; exact hn) (by omega)
        (fun j2 h2 hn2 hlt => hspec.2.2.2.2 j2 h2 hn2 (by omega))
    · have h1 : n < 2 ^ (n + 2) :=
        lt_of_lt_of_le (Nat.lt_two_pow n) (Nat.pow_le_pow_right (by omega) (by omega))
      have h2 : 2 ^ (n + 2) ≤ 2 ^ (n + 2) * (2 * (l + 1)) :=
        Nat.le_mul_of_pos_right _ (by omega)
      exact lt_of_lt_of_le h1 h2

/-- The root of a max-heap is not below any element of the heap. -/
theorem root_max (lt : Nat → Nat → Bool)
    (ha : ∀ a b, lt a b = true → lt b a = false)
    (hm : ∀ a b c, lt a b = true → lt c b = false → lt a c = true)
    (s : List Nat) (m : Nat)
    (hheap : ∀ j2, 2 ≤ j2 → j2 ≤ m → heapEdge lt s j2) :
    ∀ k, 1 ≤ k → k ≤ m → lt (aGet s 1) (aGet s k) = false := by
  have H : ∀ k k', k' ≤ k → 1 ≤ k' → k' ≤ m →
      lt (aGet s 1) (aGet s k') = false := by
    intro k
    induction k with
    | zero => intro k' h1 h2 h3; omega
    | succ k ihk =>
      intro k' hk' h1 h2
      by_cases hke : k' = 1
      · rw [hke]
        exact blt_irrefl lt ha _
      · have hpar := ihk (k' / 2) (by omega) (by omega) (by omega)
        have hed := hheap k' (by omega) h2
        simp only [heapEdge] at hed
        exact blt_negtrans lt hm _ _ _ hpar hed
  exact fun k h1 h2 => H k k (Nat.le_refl k) h1 h2

/-- The construction phase introduces no new values. -/
theorem heapBuild_mem (lt : Nat → Nat → Bool) (n : Nat) :
    ∀ l seg, n ≤ seg.length → l ≤ n / 2 → ∀ v ∈ heapBuild lt n seg l, v ∈ seg
  | 0, seg => by
    intro _ _ v hv
    simpa [heapBuild] using hv
  | l + 1, seg => by
    intro hn hl v hv
    simp only [heapBuild] at hv
    rcases hsd : siftDown lt (seg.getD (l + 1 - 1) 0) n seg (l + 1)
      (2 * (l + 1)) (n + 2) with ⟨sg, f⟩
    rw [hsd] at hv
    have hlen : sg.length = seg.length := by
      have hL := siftDown_length lt (seg.getD (l + 1 - 1) 0) n (n + 2) seg
        (l + 1) (2 * (l + 1))
      rw [hsd] at hL
      exact hL
    have hv2 := heapBuild_mem lt n l (sg.set (f - 1) (seg.getD (l + 1 - 1) 0))
      (by rw [List.length_set, hlen]; exact hn) (by omega) v hv
    rcases List.mem_or_eq_of_mem_set hv2 with h | h
    · exact siftDown_mem lt (seg.getD (l + 1 - 1) 0) n (n + 2) seg (l + 1)
        (2 * (l + 1)) hn (by omega) v (by rw [hsd]; exact h)
    · rw [h]
      exact getD_mem seg (l + 1 - 1) (by omega)

/-- The extraction phase introduces no new values. -/
theorem heapExtract_mem (lt : Nat → Nat → Bool) :
    ∀ m seg, m ≤ seg.length → ∀ v ∈ heapExtract lt seg m, v ∈ seg
  | 0, seg => by
    intro _ v hv
    simpa [heapExtract] using hv
  | 1, seg => by
    intro _ v hv
    simpa [heapExtract] using hv
  | m + 2, seg => by
    intro hmle v hv
    simp only [heapExtract] at hv
    rcases hsd : siftDown lt (seg.getD (m + 2 - 1) 0) (m + 2 - 1)
      (seg.set (m + 2 - 1) (seg.getD 0 0)) 1 2 (m + 2 + 2) with ⟨sg, f⟩
    rw [hsd] at hv
    have hlen : sg.length = seg.length := by
      have hL := siftDown_length lt (seg.getD (m + 2 - 1) 0) (m + 2 - 1)
        (m + 2 + 2) (seg.set (m + 2 - 1) (seg.getD 0 0)) 1 2
      rw [hsd] at hL
      rw [hL, List.length_set]
    have hv2 := heapExtract_mem lt (m + 1) (sg.set (f - 1) (seg.getD (m + 2 - 1) 0))
      (by rw [List.length_set, hlen]; omega) v hv
    rcases List.mem_or_eq_of_mem_set hv2 with h | h
    · have hv3 := siftDown_mem lt (seg.getD (m + 2 - 1) 0) (m + 2 - 1) (m + 2 + 2)
        (seg.set (m + 2 - 1) (seg.getD 0 0)) 1 2
        (by rw [List.length_set]; omega) (by omega) v (by rw [hsd]; exact h)
      rcases List.mem_or_eq_of_mem_set hv3 with h2 | h2
      · exact h2
      · rw [h2]
        exact getD_mem seg 0 (by omega)
    · rw [h]
      exact getD_mem seg (m + 2 - 1) (by omega)

/-- Extraction phase of `npy_aheapsort`: starting from a max-heap of size
`m` whose suffix beyond `m` is already sorted and dominates the heap, the
result is sorted ascending position by position. -/
theorem heapExtract_spec (lt : Nat → Nat → Bool)
    (ha : ∀ a b, lt a b = true → lt b a = false)
    (hm : ∀ a b c, lt a b = true → lt c b = false → lt a c = true) :
    ∀ m seg, m ≤ seg.length →
      (∀ j2, 2 ≤ j2 → j2 ≤ m → heapEdge lt seg j2) →
      (∀ a b, m ≤ a → a < b → b < seg.length →
        lt (seg.getD b 0) (seg.getD a 0) = false) →
      (∀ k b, k < m → m ≤ b → b < seg.length →
        lt (seg.getD b 0) (seg.getD k 0) = false) →
      ∀ a b, a < b → b < seg.length →
        lt ((heapExtract lt seg m).getD b 0) ((heapExtract lt seg m).getD a 0)
          = false
  | 0, seg => by
    intro hm0 hheap hsuf hdom a b hab hb
    simp only [heapExtract]
    exact hsuf a b (by omega) hab hb
  | 1, seg => by
    intro hm1 hheap hsuf hdom a b hab hb
    simp only [heapExtract]
    by_cases ha0 : a = 0
    · rw [ha0]
      exact hdom 0 b (by omega) (by omega) hb
    · exact hsuf a b (by omega) hab hb
  | m + 2, seg => by
    intro hmle hheap hsuf hdom a b hab hb
    simp only [heapExtract]
    rcases hsd : siftDown lt (seg.getD (m + 2 - 1) 0) (m + 2 - 1)
      (seg.set (m + 2 - 1) (seg.getD 0 0)) 1 2 (m + 2 + 2) with ⟨sg, f⟩
    have hred : m + 2 - 1 = m + 1 := rfl
    have hspec := siftDown_spec lt ha hm (seg.getD (m + 2 - 1) 0) (m + 1)
      (m + 2 + 2) (seg.set (m + 2 - 1) (seg.getD 0 0)) 1 sg f hsd
      (Nat.le_refl 1) (by omega) (by rw [List.length_set]; omega) ?_ ?_
    · obtain ⟨⟨hf1, hf2, _⟩, hA3, hA4, _, hA6⟩ := hspec
      have hlen : sg.length = seg.length := by
        have hL := siftDown_length lt (seg.getD (m + 2 - 1) 0) (m + 2 - 1)
          (m + 2 + 2) (seg.set (m + 2 - 1) (seg.getD 0 0)) 1 2
        rw [hsd] at hL
        rw [hL, List.length_set]
      have hFlen : (sg.set (f - 1) (seg.getD (m + 2 - 1) 0)).length
          = seg.length := by
        rw [List.length_set, hlen]
      have hFout : ∀ x, m + 1 ≤ x →
          (sg.set (f - 1) (seg.getD (m + 2 - 1) 0)).getD x 0
            = (seg.set (m + 2 - 1) (seg.getD 0 0)).getD x 0 := by
        intro x hx
        rw [getD_set_ne sg (f - 1) x _ (by omega)]
        have hstep := hA3 (x + 1) (by omega) (by omega)
        simp only [aGet] at hstep
        simpa using hstep
      have hFsufval : ∀ x, m + 2 ≤ x →
          (sg.set (f - 1) (seg.getD (m + 2 - 1) 0)).getD x 0 = seg.getD x 0 := by
        intro x hx
        rw [hFout x (by omega), getD_set_ne seg (m + 2 - 1) x _ (by omega)]
      have hFtop : (sg.set (f - 1) (seg.getD (m + 2 - 1) 0)).getD (m + 1) 0
          = seg.getD 0 0 := by
        rw [hFout (m + 1) (Nat.le_refl _)]
        exact getD_set_eq seg (m + 2 - 1) _ (by omega)
      have hFheap : ∀ k, k < m + 1 → ∃ k2, k2 < m + 2 ∧
          (sg.set (f - 1) (seg.getD (m + 2 - 1) 0)).getD k 0 = seg.getD k2 0 := by
        intro k hk
        by_cases hkf : k = f - 1
        · refine ⟨m + 1, by omega, ?_⟩
          rw [hkf, getD_set_eq sg (f - 1) _ (by omega)]
          rfl
        · rw [getD_set_ne sg (f - 1) k _ (Ne.symm hkf)]
          obtain ⟨k2, hk21, hk22, he⟩ := hA4 (k + 1) (by omega) (by omega)
          simp only [aGet] at he
          simp only [Nat.add_sub_cancel] at he
          refine ⟨k2 - 1, by omega, ?_⟩
          rw [he, getD_set_ne seg (m + 2 - 1) (k2 - 1) _ (by omega)]
      have hrm : ∀ k2, k2 < m + 2 →
          lt (seg.getD 0 0) (seg.getD k2 0) = false := by
        intro k2 hk2
        have := root_max lt ha hm seg (m + 2) hheap (k2 + 1) (by omega) (by omega)
        simp only [aGet, Nat.add_sub_cancel] at this
        simpa using this
      have hrec := heapExtract_spec lt ha hm (m + 1)
        (sg.set (f - 1) (seg.getD (m + 2 - 1) 0)) (by rw [hFlen]; omega)
        ?_ ?_ ?_ a b hab (by rw [hFlen]; exact hb)
      · exact hrec
      · intro j2 h2 hj2
        exact hA6 j2 h2 hj2 (by omega)
      · intro a' b' ha' hab' hb'
        rw [hFlen] at hb'
        rw [hFsufval b' (by omega)]
        rcases Nat.eq_or_lt_of_le ha' with h | h
        · rw [← h, hFtop]
          exact hdom 0 b' (by omega) (by omega) hb'
        · rw [hFsufval a' (by omega)]
          exact hsuf a' b' (by omega) hab' hb'
      · intro k b' hk hb1 hb2
        rw [hFlen] at hb2
        obtain ⟨k2, hk2, he⟩ := hFheap k hk
        rw [he]
        rcases Nat.eq_or_lt_of_le hb1 with h | h
        · rw [← h, hFtop]
          exact hrm k2 hk2
        · rw [hFsufval b' (by omega)]
          exact hdom k2 b' hk2 (by omega) hb2
    · have h1 : m + 1 < 2 ^ (m + 2 + 2) :=
        lt_of_lt_of_le (Nat.lt_two_pow (m + 1))
          (Nat.pow_le_pow_right (by omega) (by omega))
      have h2 : 2 ^ (m + 2 + 2) ≤ 2 ^ (m + 2 + 2) * (2 * 1) :=
        Nat.le_mul_of_pos_right _ (by omega)
      exact lt_of_lt_of_le h1 h2
    · intro j2 h2 hj2 hpar
      have hed := hheap j2 h2 (by omega)
      simp only [heapEdge, aGet] at hed ⊢
      rw [getD_set_ne seg (m + 2 - 1) (j2 / 2 - 1) _ (by omega),
        getD_set_ne seg (m + 2 - 1) (j2 - 1) _ (by omega)]
      exact hed

/-- `npy_aheapsort` sorts its segment ascending, position by position. -/
theorem heapSortList_sorted (lt : Nat → Nat → Bool)
    (ha : ∀ a b, lt a b = true → lt b a = false)
    (hm : ∀ a b c, lt a b = true → lt c b = false → lt a c = true)
    (s : List Nat) :
    ∀ a b, a < b → b < (heapSortList lt s).length →
      lt ((heapSortList lt s).getD b 0) ((heapSortList lt s).getD a 0)
        = false := by
  intro a b hab hb
  rw [heapSortList_length] at hb
  simp only [heapSortList]
  have hblen : (heapBuild lt s.length s (s.length / 2)).length = s.length :=
    heapBuild_length lt s.length (s.length / 2) s
  have hbuild := heapBuild_spec lt ha hm s.length (s.length / 2) s
    (Nat.le_refl _) (Nat.le_refl _) ?_
  · exact heapExtract_spec lt ha hm s.length
      (heapBuild lt s.length s (s.length / 2)) (by rw [hblen]) hbuild
      (fun a' b' h1 h2 h3 => absurd h3 (by rw [hblen]; omega))
      (fun k b' h1 h2 h3 => absurd h3 (by rw [hblen]; omega))
      a b hab (by rw [hblen]; exact hb)
  · intro j2 h2 hj2 hpar
    have h3 : j2 / 2 ≤ s.length / 2 := Nat.div_le_div_right hj2
    omega

/-- `npy_aheapsort` introduces no new values. -/
theorem heapSortList_mem (lt : Nat → Nat → Bool) (s : List Nat) :
    ∀ v ∈ heapSortList lt s, v ∈ s := by
  intro v hv
  simp only [heapSortList] at hv
  have h1 := heapExtract_mem lt s.length (heapBuild lt s.length s (s.length / 2))
    (by rw [heapBuild_length]) v hv
  exact heapBuild_mem lt s.length (s.length / 2) s (Nat.le_refl _)
    (Nat.le_refl _) v h1

/-- Dropping the head segment keeps the pending list well formed. -/
theorem SegsOK_tail (n : Nat) (p : Nat × Nat) (stk : List (Nat × Nat))
    (h : SegsOK n (p :: stk)) : SegsOK n stk :=
  ⟨fun s hs => h.1 s (List.mem_cons_of_mem p hs), (List.pairwise_cons.mp h.2).2⟩

/-- The head segment of a well-formed pending list is disjoint from every
later segment. -/
theorem SegsOK_head_disjoint (n : Nat) (p : Nat × Nat) (stk : List (Nat × Nat))
    (h : SegsOK n (p :: stk)) : ∀ q ∈ stk, p.2 < q.1 ∨ q.2 < p.1 :=
  (List.pairwise_cons.mp h.2).1

/-- The sorting invariant only depends on the set of pending segments:
the two topmost segments may be listed in either order. -/
theorem CrossOK_perm12 (lt : Nat → Nat → Bool) (t : List Nat)
    (a b : Nat × Nat) (s : List (Nat × Nat))
    (h : CrossOK lt t (a :: b :: s)) : CrossOK lt t (b :: a :: s) := by
  intro i j hij hj hns
  refine h i j hij hj ?_
  intro q hq
  rcases List.mem_cons.mp hq with rfl | hq
  · exact hns q (List.mem_cons_of_mem b (List.mem_cons_self q s))
  · rcases List.mem_cons.mp hq with rfl | hq
    · exact hns q (List.mem_cons_self q (a :: s))
    · exact hns q (List.mem_cons_of_mem b (List.mem_cons_of_mem a hq))

/-- Splicing a sorting function over the head segment of a well-formed
pending list preserves the cross-segment sorting invariant, with the head
segment retired. -/
theorem splice_crossOK (lt : Nat → Nat → Bool) (f : List Nat → List Nat)
    (hflen : ∀ s, (f s).length = s.length)
    (hfsort : ∀ s : List Nat, ∀ a b, a < b → b < (f s).length →
      lt ((f s).getD b 0) ((f s).getD a 0) = false)
    (hfmem : ∀ s : List Nat, ∀ v ∈ f s, v ∈ s)
    (n : Nat) (t : List Nat) (pl pr : Nat) (stk : List (Nat × Nat))
    (hn : t.length = n) (hseg : SegsOK n ((pl, pr) :: stk))
    (hcross : CrossOK lt t ((pl, pr) :: stk)) :
    CrossOK lt (spliceSeg f t pl pr) stk := by
  have hplr := hseg.1 (pl, pr) (List.mem_cons_self _ _)
  have hpl : pl ≤ pr := hplr.1
  have hpr : pr < t.length := by
    have := hplr.2
    omega
  have hdisj := SegsOK_head_disjoint n (pl, pr) stk hseg
  have hslen : (f ((t.drop pl).take (pr + 1 - pl))).length = pr + 1 - pl := by
    rw [hflen, slice_length t pl pr hpl hpr]
  have hlen2 : (spliceSeg f t pl pr).length = t.length :=
    spliceSeg_length f hflen t pl pr
  have hval : ∀ k, pl ≤ k → k ≤ pr → ∃ k2, pl ≤ k2 ∧ k2 ≤ pr ∧
      (spliceSeg f t pl pr).getD k 0 = t.getD k2 0 := by
    intro k hk1 hk2
    rw [spliceSeg_getD_in f hflen t pl pr k hpl hpr hk1 hk2]
    have hmem : (f ((t.drop pl).take (pr + 1 - pl))).getD (k - pl) 0
        ∈ f ((t.drop pl).take (pr + 1 - pl)) :=
      getD_mem _ _ (by rw [hslen]; omega)
    obtain ⟨k2, h1, h2, h3⟩ := slice_mem t pl pr _ (hfmem _ _ hmem)
    exact ⟨k2, h1, h2, h3.symm⟩
  intro i j hij hj hnoseg
  rw [hlen2] at hj
  by_cases hiin : pl ≤ i ∧ i ≤ pr
  · by_cases hjin : pl ≤ j ∧ j ≤ pr
    · rw [spliceSeg_getD_in f hflen t pl pr i hpl hpr hiin.1 hiin.2,
        spliceSeg_getD_in f hflen t pl pr j hpl hpr hjin.1 hjin.2]
      exact hfsort _ (i - pl) (j - pl) (by omega) (by rw [hslen]; omega)
    · have hjout : pr < j := by omega
      obtain ⟨k2, h1, h2, h3⟩ := hval i hiin.1 hiin.2
      rw [h3, spliceSeg_getD_out f hflen t pl pr j hpl hpr (Or.inr hjout)]
      refine hcross k2 j (by omega) (by omega) ?_
      intro s hs
      rcases List.mem_cons.mp hs with rfl | hs
      · intro hboth
        have hcj : j ≤ pr := hboth.2.2
        omega
      · intro hboth
        rcases hdisj s hs with hd | hd
        · have hc : s.1 ≤ k2 := hboth.1.1
          omega
        · have hc : k2 ≤ s.2 := hboth.1.2
          omega
  · by_cases hjin : pl ≤ j ∧ j ≤ pr
    · have hiout : i < pl := by omega
      obtain ⟨k2, h1, h2, h3⟩ := hval j hjin.1 hjin.2
      rw [h3, spliceSeg_getD_out f hflen t pl pr i hpl hpr (Or.inl hiout)]
      refine hcross i k2 (by omega) (by omega) ?_
      intro s hs
      rcases List.mem_cons.mp hs with rfl | hs
      · intro hboth
        have hc : pl ≤ i := hboth.1.1
        omega
      · intro hboth
        rcases hdisj s hs with hd | hd
        · have hc : s.1 ≤ k2 := hboth.2.1
          omega
        · have hc : k2 ≤ s.2 := hboth.2.2
          omega
    · have hio : i < pl ∨ pr < i := by omega
      have hjo : j < pl ∨ pr < j := by omega
      rw [spliceSeg_getD_out f hflen t pl pr i hpl hpr hio,
        spliceSeg_getD_out f hflen t pl pr j hpl hpr hjo]
      refine hcross i j hij (by omega) ?_
      intro s hs
      rcases List.mem_cons.mp hs with rfl | hs
      · intro hboth
        have hc1 : pl ≤ i := hboth.1.1
        have hc2 : i ≤ pr := hboth.1.2
        omega
      · exact hnoseg s hs

/-- Mass of a pending list with an explicit head segment. -/
theorem segMass_cons (a b : Nat) (stk : List (Nat × Nat)) :
    segMass ((a, b) :: stk) = (b - a + 1) + segMass stk := by
  simp [segMass]

/-- Splitting the head segment at a partition point keeps the pending
list well formed, in either push order. -/
theorem SegsOK_split (n pl pr pi : Nat) (stk : List (Nat × Nat))
    (hseg : SegsOK n ((pl, pr) :: stk)) (h1 : pl < pi) (h2 : pi + 1 ≤ pr) :
    SegsOK n ((pl, pi - 1) :: (pi + 1, pr) :: stk) ∧
    SegsOK n ((pi + 1, pr) :: (pl, pi - 1) :: stk) := by
  obtain ⟨hb, hp⟩ := hseg
  have hh1 : pl ≤ pr := (hb (pl, pr) (List.mem_cons_self _ _)).1
  have hh2 : pr < n := (hb (pl, pr) (List.mem_cons_self _ _)).2
  have hdq : ∀ q ∈ stk, pr < q.1 ∨ q.2 < pl := (List.pairwise_cons.mp hp).1
  have hptail := (List.pairwise_cons.mp hp).2
  have hbtail : ∀ s ∈ stk, s.1 ≤ s.2 ∧ s.2 < n :=
    fun s hs => hb s (List.mem_cons_of_mem _ hs)
  have hA : ∀ q ∈ stk, (pl, pi - 1).2 < q.1 ∨ q.2 < (pl, pi - 1).1 := by
    intro q hq
    rcases hdq q hq with h | h
    · exact Or.inl (show pi - 1 < q.1 by omega)
    · exact Or.inr h
  have hB : ∀ q ∈ stk, (pi + 1, pr).2 < q.1 ∨ q.2 < (pi + 1, pr).1 := by
    intro q hq
    rcases hdq q hq with h | h
    · exact Or.inl h
    · exact Or.inr (show q.2 < pi + 1 by omega)
  have hbnd : ∀ s, s ∈ (pl, pi - 1) :: (pi + 1, pr) :: stk →
      s.1 ≤ s.2 ∧ s.2 < n := by
    intro s hs
    rcases List.mem_cons.mp hs with rfl | hs
    · exact ⟨show pl ≤ pi - 1 by omega, show pi - 1 < n by omega⟩
    · rcases List.mem_cons.mp hs with rfl | hs
      · exact ⟨show pi + 1 ≤ pr by omega, hh2⟩
      · exact hbtail s hs
  constructor
  · refine ⟨hbnd, ?_⟩
    refine List.Pairwise.cons ?_ (List.Pairwise.cons hB hptail)
    intro q hq
    rcases List.mem_cons.mp hq with rfl | hq
    · exact Or.inl (show pi - 1 < pi + 1 by omega)
    · exact hA q hq
  · refine ⟨fun s hs => ?_, ?_⟩
    · rcases List.mem_cons.mp hs with rfl | hs
      · exact ⟨show pi + 1 ≤ pr by omega, hh2⟩
      · rcases List.mem_cons.mp hs with rfl | hs
        · exact ⟨show pl ≤ pi - 1 by omega, show pi - 1 < n by omega⟩
        · exact hbtail s hs
    · refine List.Pairwise.cons ?_ (List.Pairwise.cons hA hptail)
      intro q hq
      rcases List.mem_cons.mp hq with rfl | hq
      · exact Or.inr (show (pl, pi - 1).2 < pi + 1 by show pi - 1 < pi + 1; omega)
      · exact hB q hq

/-- The inner loop of `npy_aquicksort` disposes of the current segment:
the index array keeps its length, the remaining pending list is well
formed and the sorting invariant holds for it, the two stacks stay in
step, and at least one position (the pivot of each partition, or the
whole finished segment) is retired. -/
theorem whileLoop_spec (lt : Nat → Nat → Bool)
    (ha : ∀ a b, lt a b = true → lt b a = false)
    (hm : ∀ a b c, lt a b = true → lt c b = false → lt a c = true)
    (n : Nat) :
    ∀ fuel t pl pr stk dstk cdepth t1 stk1 dstk1,
      whileLoop lt fuel t pl pr stk dstk cdepth = (t1, stk1, dstk1) →
      t.length = n →
      SegsOK n ((pl, pr) :: stk) →
      CrossOK lt t ((pl, pr) :: stk) →
      stk.length = dstk.length →
      pr - pl + 2 ≤ fuel →
      t1.length = n ∧ SegsOK n stk1 ∧ CrossOK lt t1 stk1 ∧
      stk1.length = dstk1.length ∧
      stk1.length + segMass stk1 + 1 ≤ stk.length + segMass ((pl, pr) :: stk) := by
  intro fuel
  induction fuel with
  | zero =>
    intro t pl pr stk dstk cdepth t1 stk1 dstk1 heq hn hseg hcross hsync hfuel
    exact absurd hfuel (by omega)
  | succ fuel ih =>
    intro t pl pr stk dstk cdepth t1 stk1 dstk1 heq hn hseg hcross hsync hfuel
    have hh1 : pl ≤ pr := (hseg.1 (pl, pr) (List.mem_cons_self _ _)).1
    have hh2 : pr < n := (hseg.1 (pl, pr) (List.mem_cons_self _ _)).2
    have hdisj := SegsOK_head_disjoint n (pl, pr) stk hseg
    simp only [whileLoop] at heq
    by_cases hbig : pr - pl > SMALL_QUICKSORT
    · rw [if_pos hbig] at heq
      by_cases hneg : cdepth < 0
      · rw [if_pos hneg] at heq
        cases heq
        refine ⟨?_, SegsOK_tail n _ _ hseg, ?_, hsync, ?_⟩
        · rw [spliceSeg_length _ (heapSortList_length lt), hn]
        · exact splice_crossOK lt (heapSortList lt) (heapSortList_length lt)
            (fun s a b hab hb => heapSortList_sorted lt ha hm s a b hab hb)
            (fun s v hv => heapSortList_mem lt s v hv) n t pl pr stk hn hseg
            hcross
        · rw [segMass_cons pl pr stk]
          omega
      · rw [if_neg hneg] at heq
        rcases hps : partitionStep lt t pl pr with ⟨t0, pi⟩
        simp only [hps] at heq
        have h15 : 15 < pr - pl := hbig
        have hPS := partitionStep_spec lt ha hm t pl pr t0 pi hps
          (by rw [hn]; exact hh2) h15
        obtain ⟨⟨hpi1, hpi2⟩, ⟨vp, hZL, hZR⟩, hOUT, hVS, hLEN⟩ := hPS
        have hsegs := SegsOK_split n pl pr pi stk hseg hpi1 (by omega)
        have hcross1 : CrossOK lt t0 ((pl, pi - 1) :: (pi + 1, pr) :: stk) := by
          intro i j hij hj hnoseg
          rw [hLEN, hn] at hj
          have hno1 := hnoseg (pl, pi - 1) (List.mem_cons_self _ _)
          have hno2 := hnoseg (pi + 1, pr)
            (List.mem_cons_of_mem _ (List.mem_cons_self _ _))
          have hnoq : ∀ q ∈ stk, ¬ (inSeg q i ∧ inSeg q j) :=
            fun q hq => hnoseg q
              (List.mem_cons_of_mem _ (List.mem_cons_of_mem _ hq))
          by_cases hiin : pl ≤ i ∧ i ≤ pr
          · by_cases hjin : pl ≤ j ∧ j ≤ pr
            · have hipi : i ≤ pi := by
                by_contra hc
                exact hno2 ⟨⟨show pi + 1 ≤ i by omega, show i ≤ pr by omega⟩,
                  ⟨show pi + 1 ≤ j by omega, show j ≤ pr by omega⟩⟩
              have hpij : pi ≤ j := by
                by_contra hc
                exact hno1 ⟨⟨show pl ≤ i by omega, show i ≤ pi - 1 by omega⟩,
                  ⟨show pl ≤ j by omega, show j ≤ pi - 1 by omega⟩⟩
              exact blt_negtrans lt hm _ _ _ (hZR j hpij hjin.2)
                (hZL i hiin.1 hipi)
            · have hjout : pr < j := by omega
              obtain ⟨k2, hk1, hk2, hk3⟩ := hVS i hiin.1 hiin.2
              rw [hk3, hOUT j (Or.inr hjout)]
              refine hcross k2 j (by omega) (by rw [hn]; omega) ?_
              intro s hs
              rcases List.mem_cons.mp hs with rfl | hs
              · intro hboth
                have hc : j ≤ pr := hboth.2.2
                omega
              · intro hboth
                rcases hdisj s hs with hd | hd
                · have hc : s.1 ≤ k2 := hboth.1.1
                  omega
                · have hc : k2 ≤ s.2 := hboth.1.2
                  omega
          · by_cases hjin : pl ≤ j ∧ j ≤ pr
            · have hiout : i < pl := by omega
              obtain ⟨k2, hk1, hk2, hk3⟩ := hVS j hjin.1 hjin.2
              rw [hk3, hOUT i (Or.inl hiout)]
              refine hcross i k2 (by omega) (by rw [hn]; omega) ?_
              intro s hs
              rcases List.mem_cons.mp hs with rfl | hs
              · intro hboth
                have hc : pl ≤ i := hboth.1.1
                omega
              · intro hboth
                rcases hdisj s hs with hd | hd
                · have hc : s.1 ≤ k2 := hboth.2.1
                  omega
                · have hc : k2 ≤ s.2 := hboth.2.2
                  omega
            · rw [hOUT i (by omega), hOUT j (by omega)]
              refine hcross i j hij (by rw [hn]; omega) ?_
              intro s hs
              rcases List.mem_cons.mp hs with rfl | hs
              · intro hboth
                have hc1 : pl ≤ i := hboth.1.1
                have hc2 : i ≤ pr := hboth.1.2
                omega
              · exact hnoq s hs
        by_cases hside : pi - pl < pr - pi
        · rw [if_pos hside] at heq
          have hrec := ih t0 pl (pi - 1) ((pi + 1, pr) :: stk)
            ((cdepth - 1) :: dstk) (cdepth - 1) t1 stk1 dstk1 heq
            (by rw [hLEN]; exact hn) hsegs.1 hcross1 (by simp [hsync])
            (by omega)
          refine ⟨hrec.1, hrec.2.1, hrec.2.2.1, hrec.2.2.2.1, ?_⟩
          have hW5 := hrec.2.2.2.2
          rw [segMass_cons pl (pi - 1), segMass_cons (pi + 1) pr,
            List.length_cons] at hW5
          rw [segMass_cons pl pr stk]
          omega
        · rw [if_neg hside] at heq
          have hrec := ih t0 (pi + 1) pr ((pl, pi - 1) :: stk)
            ((cdepth - 1) :: dstk) (cdepth - 1) t1 stk1 dstk1 heq
            (by rw [hLEN]; exact hn) hsegs.2
            (CrossOK_perm12 lt t0 (pl, pi - 1) (pi + 1, pr) stk hcross1)
            (by simp [hsync]) (by omega)
          refine ⟨hrec.1, hrec.2.1, hrec.2.2.1, hrec.2.2.2.1, ?_⟩
          have hW5 := hrec.2.2.2.2
          rw [segMass_cons (pi + 1) pr, segMass_cons pl (pi - 1),
            List.length_cons] at hW5
          rw [segMass_cons pl pr stk]
          omega
    · rw [if_neg hbig] at heq
      cases heq
      refine ⟨?_, SegsOK_tail n _ _ hseg, ?_, hsync, ?_⟩
      · rw [spliceSeg_length _ (insertionPass_length lt), hn]
      · exact splice_crossOK lt (insertionPass lt) (insertionPass_length lt)
          (fun s a b hab hb => insertionPass_sorted_getD lt ha hm s a b hab hb)
          (fun s v hv => insertionPass_subset lt s v hv) n t pl pr stk hn hseg
          hcross
      · rw [segMass_cons pl pr stk]
        omega

/-- The outer loop of `npy_aquicksort`, given enough fuel for the pending
mass, drains the segment stack and leaves the index array fully sorted
ascending, position by position. -/
theorem outerLoop_sorted (lt : Nat → Nat → Bool)
    (ha : ∀ a b, lt a b = true → lt b a = false)
    (hm : ∀ a b c, lt a b = true → lt c b = false → lt a c = true)
    (n : Nat) :
    ∀ fuel t pl pr stk dstk cdepth,
      t.length = n →
      SegsOK n ((pl, pr) :: stk) →
      CrossOK lt t ((pl, pr) :: stk) →
      stk.length = dstk.length →
      stk.length + segMass ((pl, pr) :: stk) + 1 ≤ fuel →
      ∀ i j, i < j → j < n →
        lt ((outerLoop lt fuel t pl pr stk dstk cdepth).getD j 0)
          ((outerLoop lt fuel t pl pr stk dstk cdepth).getD i 0) = false := by
  intro fuel
  induction fuel with
  | zero =>
    intro t pl pr stk dstk cdepth hn hseg hcross hsync hfuel
    exact absurd hfuel (by omega)
  | succ fuel ih =>
    intro t pl pr stk dstk cdepth hn hseg hcross hsync hfuel i j hij hjn
    have hh2 : pr < n := (hseg.1 (pl, pr) (List.mem_cons_self _ _)).2
    rcases hwq : whileLoop lt (t.length + 2) t pl pr stk dstk cdepth
      with ⟨t1, stk1, dstk1⟩
    have hW := whileLoop_spec lt ha hm n (t.length + 2) t pl pr stk dstk cdepth
      t1 stk1 dstk1 hwq hn hseg hcross hsync (by omega)
    obtain ⟨hW1, hW2, hW3, hW4, hW5⟩ := hW
    simp only [outerLoop, hwq]
    cases stk1 with
    | nil =>
      cases dstk1 with
      | nil =>
        exact hW3 i j hij (by rw [hW1]; exact hjn)
          (fun s hs => absurd hs (List.not_mem_nil s))
      | cons cd drest => simp at hW4
    | cons p srest =>
      cases dstk1 with
      | nil => simp at hW4
      | cons cd drest =>
        have hmass := hW5
        rw [segMass_cons pl pr stk] at hmass
        refine ih t1 p.1 p.2 srest drest cd hW1 ?_ ?_ ?_ ?_ i j hij hjn
        · have : (p.1, p.2) = p := Prod.mk.eta
          rw [this]
          exact hW2
        · have : (p.1, p.2) = p := Prod.mk.eta
          rw [this]
          exact hW3
        · have := hW4
          simp only [List.length_cons] at this
          omega
        · have : (p.1, p.2) = p := Prod.mk.eta
          rw [this]
          simp only [List.length_cons] at hmass
          rw [segMass_cons pl pr stk] at hfuel
          omega

/-- `npy_aquicksort` sorts the index array ascending under any comparison
that is asymmetric and mixed-transitive (as a strict weak order is): for
all positions `i < j` the key at position `j` is not below the key at
position `i`. -/
theorem npyAquicksort_sorted (lt : Nat → Nat → Bool)
    (ha : ∀ a b, lt a b = true → lt b a = false)
    (hm : ∀ a b c, lt a b = true → lt c b = false → lt a c = true)
    (n : Nat) :
    ∀ i j, i < j → j < n →
      lt ((npyAquicksort lt n).getD j 0) ((npyAquicksort lt n).getD i 0)
        = false := by
  intro i j hij hjn
  have hn1 : 1 ≤ n := by omega
  rw [npyAquicksort]
  refine outerLoop_sorted lt ha hm n (n + 2) (List.range n) 0 (n - 1) [] []
    (2 * (npyGetMsb n : Int)) (by simp) ?_ ?_ rfl ?_ i j hij hjn
  · refine ⟨?_, List.pairwise_singleton _ _⟩
    intro s hs
    rcases List.mem_cons.mp hs with rfl | hs
    · exact ⟨show 0 ≤ n - 1 by omega, show n - 1 < n by omega⟩
    · exact absurd hs (List.not_mem_nil s)
  · intro i2 j2 hij2 hj2 hns
    exfalso
    rw [List.length_range] at hj2
    exact hns (0, n - 1) (List.mem_cons_self _ _)
      ⟨⟨show 0 ≤ i2 by omega, show i2 ≤ n - 1 by omega⟩,
        ⟨show 0 ≤ j2 by omega, show j2 ≤ n - 1 by omega⟩⟩
  · rw [segMass_cons 0 (n - 1) []]
    simp [segMass]

/-! ### C3 -/

/-- C3 amended: whenever `process_data` succeeds, the output has exactly
as many rows as the input and, for every table size, the rows are sorted
by the renamed assignee value ascending (numpy's introspective quicksort
sorts correctly at every size).  Stability holds only for tables of at
most 16 rows, where the sort runs as a single stable insertion-sort pass:
there, filtering the output by any assignee key yields exactly the
corresponding rows of the pre-sort formatted table in their original
order.  For more than 16 rows the default `kind='quicksort'` offers no
stability guarantee, and the counterexample exhibits a 17-row table where
rows with equal assignee keys are reordered. -/
theorem c3_process_data_sorted (provider : Provider) (st : TransState)
    (df df' : DataFrame) (st' st2 : TransState) (filled : List (List Cell))
    (h : process_data provider st df = .ok (df', st'))
    (hft : formattedTable provider st df = .ok (filled, st2)) :
    df'.rows.length = df.rows.length ∧
    List.Pairwise (fun r1 r2 => pyStrLt (rowKey r2) (rowKey r1) = false) df'.rows ∧
    (df.rows.length ≤ 16 →
      ∀ k : String, df'.rows.filter (fun r => rowKey r == k)
        = filled.filter (fun r => rowKey r == k)) := by
  have hpe := process_data_eq provider st df filled st2 hft
  rw [h] at hpe
  have hdf : df' = DataFrame.mk reportCols
      ((npyAquicksort (ltIdx (filled.map rowKey))
        (filled.map rowKey).length).map (fun i => filled.getD i [])) :=
    congrArg Prod.fst (Except.ok.inj hpe)
  have hflen : filled.length = df.rows.length :=
    formattedTable_ok_length provider st df filled st2 hft
  have hkey : ∀ i, rowKey (filled.getD i []) = (filled.map rowKey).getD i "" :=
    fun i => (getD_map_rowKey filled i).symm
  have hasym : ∀ a b, ltIdx (filled.map rowKey) a b = true →
      ltIdx (filled.map rowKey) b a = false :=
    fun a b hab => pyStrLt_asymm _ _ hab
  have hmix : ∀ a b c, ltIdx (filled.map rowKey) a b = true →
      ltIdx (filled.map rowKey) c b = false →
      ltIdx (filled.map rowKey) a c = true :=
    fun a b c h1 h2 => pyStrLt_lt_of_lt_of_nlt _ _ _ h1 h2
  refine ⟨?_, ?_, ?_⟩
  · rw [hdf]
    simp only [List.length_map, npyAquicksort_length]
    exact hflen
  · rw [hdf]
    simp only [List.pairwise_map]
    rw [List.pairwise_iff_getElem]
    intro a b hA hB hab
    have hlen : (npyAquicksort (ltIdx (filled.map rowKey))
        (filled.map rowKey).length).length = (filled.map rowKey).length :=
      npyAquicksort_length _ _
    have hs := npyAquicksort_sorted (ltIdx (filled.map rowKey)) hasym hmix
      (filled.map rowKey).length a b hab (by rw [← hlen]; exact hB)
    simp only [hkey]
    show ltIdx (filled.map rowKey)
      ((npyAquicksort (ltIdx (filled.map rowKey))
        (filled.map rowKey).length)[b])
      ((npyAquicksort (ltIdx (filled.map rowKey))
        (filled.map rowKey).length)[a]) = false
    rw [← getD_eq_getElem _ b hB, ← getD_eq_getElem _ a hA]
    exact hs
  · intro h16
    have hle : (filled.map rowKey).length ≤ 16 := by
      rw [List.length_map, hflen]
      exact h16
    have hidx := npyAquicksort_le16 (ltIdx (filled.map rowKey))
      (filled.map rowKey).length hle
    intro k
    rw [hdf]
    simp only [hidx]
    rw [List.filter_map]
    have hcomp : ((fun r => rowKey r == k) ∘ fun i => filled.getD i [])
        = fun i => (filled.map rowKey).getD i "" == k := by
      funext i
      simp only [Function.comp]
      rw [hkey i]
    have hclass : ∀ x y, ((filled.map rowKey).getD x "" == k) = true →
        ((filled.map rowKey).getD y "" == k) = true →
        ltIdx (filled.map rowKey) x y = false := by
      intro x y hx hy
      rw [ltIdx, eq_of_beq hx, eq_of_beq hy]
      exact pyStrLt_irrefl k
    rw [hcomp, insertionPass_filter _ _ hclass _, ← hcomp, ← List.filter_map,
      show (filled.map rowKey).length = filled.length from List.length_map _ _,
      map_getD_range filled []]

/-- Witness for the amended C3 at a concrete two-row table with assignees
`"b"`, `"a"`: row count is preserved, the output is sorted by assignee,
and filtering the sorted output by assignee `"a"` returns exactly the
corresponding pre-sort row. -/
theorem c3_process_data_sorted_witness :
    (DataFrame.mk reportCols
        [[some "a", some "t2", some "t2", some "x2", some "x2", some "r",
          some "s", some "p1", some "p2", some "p3", some "p4"],
         [some "b", some "t1", some "t1", some "x1", some "x1", some "r",
          some "s", some "p1", some "p2", some "p3", some "p4"]]).rows.length
      = (DataFrame.mk
          ["Assignees", "Title", "body", "Repository", "Status",
           "plan start", "plan finish", "real start", "real finish"]
          [[some "b", some "t1", some "x1", some "r", some "s", some "p1",
            some "p2", some "p3", some "p4"],
           [some "a", some "t2", some "x2", some "r", some "s", some "p1",
            some "p2", some "p3", some "p4"]]).rows.length ∧
    (DataFrame.mk reportCols
        [[some "a", some "t2", some "t2", some "x2", some "x2", some "r",
          some "s", some "p1", some "p2", some "p3", some "p4"],
         [some "b", some "t1", some "t1", some "x1", some "x1", some "r",
          some "s", some "p1", some "p2", some "p3", some "p4"]]).rows.filter
        (fun r => rowKey r == "a")
      = List.filter (fun r => rowKey r == "a")
          [[some "b", some "t1", some "t1", some "x1", some "x1", some "r",
            some "s", some "p1", some "p2", some "p3", some "p4"],
           [some "a", some "t2", some "t2", some "x2", some "x2", some "r",
            some "s", some "p1", some "p2", some "p3", some "p4"]] :=
  ⟨(c3_process_data_sorted (fun _ _ _ => none) { cache := [], calls := 0 }
      (DataFrame.mk
        ["Assignees", "Title", "body", "Repository", "Status",
         "plan start", "plan finish", "real start", "real finish"]
        [[some "b", some "t1", some "x1", some "r", some "s", some "p1",
          some "p2", some "p3", some "p4"],
         [some "a", some "t2", some "x2", some "r", some "s", some "p1",
          some "p2", some "p3", some "p4"]])
      (DataFrame.mk reportCols
        [[some "a", some "t2", some "t2", some "x2", some "x2", some "r",
          some "s", some "p1", some "p2", some "p3", some "p4"],
         [some "b", some "t1", some "t1", some "x1", some "x1", some "r",
          some "s", some "p1", some "p2", some "p3", some "p4"]])
      { cache := [], calls := 4 } { cache := [], calls := 4 }
      [[some "b", some "t1", some "t1", some "x1", some "x1", some "r",
        some "s", some "p1", some "p2", some "p3", some "p4"],
       [some "a", some "t2", some "t2", some "x2", some "x2", some "r",
        some "s", some "p1", some "p2", some "p3", some "p4"]]
      rfl rfl).1,
   (((c3_process_data_sorted (fun _ _ _ => none) { cache := [], calls := 0 }
      (DataFrame.mk
        ["Assignees", "Title", "body", "Repository", "Status",
         "plan start", "plan finish", "real start", "real finish"]
        [[some "b", some "t1", some "x1", some "r", some "s", some "p1",
          some "p2", some "p3", some "p4"],
         [some "a", some "t2", some "x2", some "r", some "s", some "p1",
          some "p2", some "p3", some "p4"]])
      (DataFrame.mk reportCols
        [[some "a", some "t2", some "t2", some "x2", some "x2", some "r",
          some "s", some "p1", some "p2", some "p3", some "p4"],
         [some "b", some "t1", some "t1", some "x1", some "x1", some "r",
          some "s", some "p1", some "p2", some "p3", some "p4"]])
      { cache := [], calls := 4 } { cache := [], calls := 4 }
      [[some "b", some "t1", some "t1", some "x1", some "x1", some "r",
        some "s", some "p1", some "p2", some "p3", some "p4"],
       [some "a", some "t2", some "t2", some "x2", some "x2", some "r",
        some "s", some "p1", some "p2", some "p3", some "p4"]]
      rfl rfl).2.2 (by decide)) "a")⟩
